import Mathlib

/-! # multitime: the batch parser, placeholder substitution, executor and scheduler

A shallow embedding of `multitime.c`.

Conventions of the embedding.

* A `char *` buffer is a `List Char` holding the bytes written into it, the
  terminating NUL left out.  Where the C code reads a buffer as a string
  (`strcmp`, `strlen`, `strstr`) the embedding reads `cstr`, the bytes before
  the first NUL.
* The read position `i` in the batch data `bd` (of size `bfsz`) is represented
  by the unread bytes `bd[i..bfsz)`: `i < bfsz` is "the list is non-empty",
  `i += 1` drops the head, `i == bfsz` is "the list is empty".
* A `while` loop whose number of passes is not a structural measure takes a
  budget; running out of budget is the result `Res.unfinished`, which is not a
  behaviour of the program.
* `int` values are natural numbers or integers in the range where the C
  arithmetic is defined (no signed overflow), except for the `-n` option,
  where the value read is converted to `int` by reduction modulo 2^32 into
  the signed range.
-/

namespace Multitime

/-! ## Results -/

/-- The ways the process terminates through `err`, `errx` or `assert`. -/
inductive Fatal where
  /-- `errx(1, "%s at line %d.\n", msg, lineno)` at label `parse_err`. -/
  | parse_err (msg : String) (lineno : Nat)
  /-- `errx(1, "option requires an argument -- X")` in `parse_batch`. -/
  | requires_argument (opt : Char)
  /-- `errx(1, "unknown option -- %c", argv[j][0])` in `parse_batch`. -/
  | unknown_option (c : Char)
  /-- `err(1, "Error when attempting to run %s", cmd->argv[0])` at `cmd_err`. -/
  | cmd_err (argv0 : Option (List Char))
  /-- `err(1, "Error when attempting to run %s", output_cmd)` at `output_cmd_err`. -/
  | output_cmd_err (output_cmd : List Char)
  /-- `errx(1, "Exiting because '%s' failed.", output_cmd)`. -/
  | output_cmd_failed (output_cmd : List Char)
  /-- `errx(1, "Error when attempting to run %s.", cmd->input_cmd)` in `read_input`. -/
  | input_cmd_err (input_cmd : List Char)
  /-- A failed `assert`. -/
  | assert_fail (cond : String)
  /-- An integer division by zero (`x % 0`). -/
  | sigfpe
deriving DecidableEq

/-- Result of running a piece of the program. -/
inductive Res (α : Type) where
  /-- The code ran to its end and produced `a`. -/
  | ok (a : α)
  /-- The process was terminated. -/
  | fatal (f : Fatal)
  /-- The budget given to the model ran out while the program was still running. -/
  | unfinished
deriving DecidableEq

/-! ## Data model -/

/-- Modelled from the spec: `struct rusage` of `<sys/resource.h>`, whose
declaration is not part of `multitime.c`; the fields the spec names. -/
structure Rusage where
  ru_utime : Nat
  ru_stime : Nat
  ru_maxrss : Nat
deriving DecidableEq

/-- Modelled from the spec: `Cmd` of `multitime.h`, whose declaration is not
part of `multitime.c`; the fields are those `multitime.c` reads and writes.
`rusages[j] = none` is the NULL pointer of an empty run slot; a `timevals`
entry is the duration in microseconds. -/
structure Cmd where
  argv : List (List Char)
  input_cmd : Option (List Char)
  output_cmd : Option (List Char)
  replace_str : Option (List Char)
  quiet : Bool
  rusages : List (Option Rusage)
  timevals : List (Option Int)
deriving DecidableEq

/-- Modelled from the spec: `Conf` of `multitime.h`, whose declaration is not
part of `multitime.c`; `num_cmds` is the length of `cmds`, and `format_style`
is left out (`parse_batch`, `execute_cmd` and the scheduling loop do not read it). -/
structure Conf where
  num_runs : Nat
  sleep : Nat
  verbosity : Nat
  cmds : List Cmd
deriving DecidableEq

/-- The number of commands, `conf->num_cmds`. -/
def Conf.num_cmds (conf : Conf) : Nat := conf.cmds.length

/-! ## C strings -/

/-- The NUL byte. -/
def NUL : Char := Char.ofNat 0

/-- The bytes of a buffer before its first NUL: the buffer read as a C string. -/
def cstr : List Char → List Char
  | [] => []
  | c :: rest => if c = NUL then [] else c :: cstr rest

/-- `strlen`. -/
def strlen (s : List Char) : Nat := (cstr s).length

/-! ## Batch parser (`escape_char`, `parse_batch`) -/

/-- `escape_char` (lines 478-492). -/
def escape_char (c : Char) : Char :=
  match c with
  | '0' => NUL
  | 'n' => '\n'
  | 'r' => '\r'
  | 't' => '\r'
  | _ => c

/-- Line 296: `while (i < bfsz && (bd[i] == ' ' || bd[i] == '\t')) i += 1;`. -/
def skip_blank : List Char → List Char
  | [] => []
  | c :: rest => if c = ' ' ∨ c = '\t' then skip_blank rest else c :: rest

/-- Line 311: `while (i < bfsz && (bd[i] != '\n' || bd[i] != '\r')) i += 1;`. -/
def skip_comment : List Char → List Char
  | [] => []
  | c :: rest => if c ≠ '\n' ∨ c ≠ '\r' then skip_comment rest else c :: rest

/-- Line 323: `while (j < bfsz && (bd[j] == ' ' || bd[j] == '\t' || bd[j] == '\r')) j += 1;`. -/
def skip_space : List Char → List Char
  | [] => []
  | c :: rest => if c = ' ' ∨ c = '\t' ∨ c = '\r' then skip_space rest else c :: rest

/-- The measuring pass (lines 341-367): from the unread bytes at `j` and the
running `argsz`, the final `argsz` and the unread bytes where the loop stops. -/
def measure_arg (lineno : Nat) (qc : Char) : List Char → Nat → Res (Nat × List Char)
  | [], argsz => .ok (argsz, [])
  | c :: rest, argsz =>
    if qc ≠ NUL ∧ c = qc then .ok (argsz, c :: rest)
    else if c = '\n' ∨ c = '\r' then
      if qc ≠ NUL then .fatal (.parse_err "Unterminated string" lineno)
      else .ok (argsz, c :: rest)
    else if qc = NUL ∧ c = ' ' then .ok (argsz, c :: rest)
    else if c = '\\' then
      match rest with
      | [] => .fatal (.parse_err "Escape char not specified" lineno)
      | _ :: rest2 => measure_arg lineno qc rest2 (argsz + 1)
    else measure_arg lineno qc rest (argsz + 1)

/-- The copy pass (lines 377-399): from the unread bytes at `i` and the bytes
written to `arg` so far, the bytes of `arg` and the unread bytes where the
loop stops. -/
def copy_arg (qc : Char) : List Char → List Char → Res (List Char × List Char)
  | [], arg => .ok (arg, [])
  | c :: rest, arg =>
    if qc ≠ NUL ∧ c = qc then .ok (arg, rest)
    else if c = '\n' ∨ c = '\r' then
      if qc ≠ NUL then .fatal (.assert_fail "!qc")
      else .ok (arg, c :: rest)
    else if qc = NUL ∧ c = ' ' then .ok (arg, c :: rest)
    else if c = '\\' then
      match rest with
      | [] => .fatal (.assert_fail "i + 1 < bfsz")
      | d :: rest2 => copy_arg qc rest2 (arg ++ [escape_char d])
    else copy_arg qc rest (arg ++ [c])

/-- Lines 331-335: `qc` (NUL when the token opens with no quote) and the
unread bytes after the opening quote. -/
def open_quote : List Char → Char × List Char
  | [] => (NUL, [])
  | c :: rest => if c = '"' ∨ c = '\'' then (c, rest) else (NUL, c :: rest)

/-- One token (lines 330-400), read at the unread bytes `bd` (non-empty in
every call of the token loop): the bytes of `arg` and the unread bytes after it. -/
def parse_arg (lineno : Nat) (bd : List Char) : Res (List Char × List Char) :=
  match measure_arg lineno (open_quote bd).1 (open_quote bd).2 0 with
  | .fatal f => .fatal f
  | .unfinished => .unfinished
  | .ok (_, bdj) =>
    if (open_quote bd).1 ≠ NUL ∧ bdj = [] then .fatal (.parse_err "Unterminated string" lineno)
    else copy_arg (open_quote bd).1 (open_quote bd).2 []

/-- The token loop of one line (lines 320-407). -/
def parse_args (lineno : Nat) : Nat → List Char → List (List Char) →
    Res (List (List Char) × List Char)
  | 0, _, _ => .unfinished
  | fuel + 1, bd, argv =>
    match bd with
    | [] => .ok (argv, [])
    | c :: rest =>
      if c = '\n' ∨ c = '\r' then .ok (argv, c :: rest)
      else if (skip_space (c :: rest)).length < (c :: rest).length then
        parse_args lineno fuel (skip_space (c :: rest)) argv
      else
        match parse_arg lineno (c :: rest) with
        | .fatal f => .fatal f
        | .unfinished => .unfinished
        | .ok (arg, bd2) => parse_args lineno fuel bd2 (argv ++ [arg])

/-- `strcmp(a, b) == 0` for a literal `b`. -/
def streq (a b : List Char) : Bool := cstr a = b

/-- The flag loop (lines 416-447) over the tokens `argv[j..argc)`: the command
with the flags set, and the tokens from the final `j` on. -/
def strip_flags : List (List Char) → Cmd → Res (Cmd × List (List Char))
  | [], cmd => .ok (cmd, [])
  | a :: rest, cmd =>
    if streq a ['-', 'I'] then
      match rest with
      | [] => .fatal (.requires_argument 'I')
      | v :: rest2 => strip_flags rest2 { cmd with replace_str := some v }
    else if streq a ['-', 'i'] then
      match rest with
      | [] => .fatal (.requires_argument 'i')
      | v :: rest2 => strip_flags rest2 { cmd with input_cmd := some v }
    else if streq a ['-', 'o'] then
      match rest with
      | [] => .fatal (.requires_argument 'o')
      | v :: rest2 => strip_flags rest2 { cmd with output_cmd := some v }
    else if streq a ['-', 'q'] then
      strip_flags rest { cmd with quiet := true }
    else if strlen a > 0 ∧ a.headD NUL = '-' then .fatal (.unknown_option (a.headD NUL))
    else .ok (cmd, a :: rest)

/-- The command of lines 409-415: no helper, no placeholder, not quiet, every
run slot empty. -/
def new_cmd (num_runs : Nat) : Cmd :=
  { argv := [], input_cmd := none, output_cmd := none, replace_str := none, quiet := false,
    rusages := List.replicate num_runs none, timevals := List.replicate num_runs none }

/-- Lines 409-458: the command built from the tokens of one line. -/
def make_cmd (num_runs : Nat) (argv : List (List Char)) : Res Cmd :=
  match strip_flags argv (new_cmd num_runs) with
  | .fatal f => .fatal f
  | .unfinished => .unfinished
  | .ok (cmd, new_argv) => .ok { cmd with argv := new_argv }

/-- The line loop (lines 294-459). -/
def parse_lines (num_runs : Nat) : Nat → Nat → List Char → List Cmd → Res (List Cmd)
  | 0, _, _, _ => .unfinished
  | fuel + 1, lineno, bd, cmds =>
    match skip_blank bd with
    | [] => .ok cmds
    | c :: rest =>
      if c = '\n' ∨ c = '\r' then
        parse_lines num_runs fuel (if c = '\n' then lineno + 1 else lineno) rest cmds
      else if c = '#' then
        match skip_comment rest with
        | [] => .ok cmds
        | d :: rest2 => parse_lines num_runs fuel lineno (d :: rest2) cmds
      else
        match parse_args lineno ((c :: rest).length + 1) (c :: rest) [] with
        | .fatal f => .fatal f
        | .unfinished => .unfinished
        | .ok (argv, bd2) =>
          match make_cmd num_runs argv with
          | .fatal f => .fatal f
          | .unfinished => .unfinished
          | .ok cmd => parse_lines num_runs fuel lineno bd2 (cmds ++ [cmd])

/-- `parse_batch` on the bytes `bd` read from the batch file: the
configuration with `cmds` (and so `num_cmds`) set. -/
def parse_batch (conf : Conf) (bd : List Char) : Res Conf :=
  match parse_lines conf.num_runs (bd.length + 1) 0 bd [] with
  | .fatal f => .fatal f
  | .unfinished => .unfinished
  | .ok cmds => .ok { conf with cmds := cmds }

/-- The configuration `main` starts from (lines 513-516), with `-n num_runs`. -/
def conf0 (num_runs : Nat) : Conf :=
  { num_runs := num_runs, sleep := 3, verbosity := 0, cmds := [] }

/-- The `argv` of every command `parse_batch` produces for `bd`. -/
def batch_argvs (bd : List Char) : Res (List (List (List Char))) :=
  match parse_batch (conf0 1) bd with
  | .fatal f => .fatal f
  | .unfinished => .unfinished
  | .ok conf => .ok (conf.cmds.map Cmd.argv)

/-! ## Placeholder substitution (`replace`) -/

/-- Whether the string `hay` begins with `needle`. -/
def starts_with : List Char → List Char → Bool
  | _, [] => true
  | [], _ :: _ => false
  | a :: hay, b :: needle => a = b && starts_with hay needle

/-- `strstr(hay, needle)` of libc: the offset of the first occurrence of
`needle` in `hay`, `none` for the NULL result. -/
def strstr : List Char → List Char → Option Nat
  | [], needle => if needle = [] then some 0 else none
  | c :: hay, needle =>
    if starts_with (c :: hay) needle then some 0
    else (strstr hay needle).map (· + 1)

/-- The counting loop of `replace` (lines 233-239), from the pointer `f` and
the running `replacen`. -/
def count_loop (replace_str : List Char) : Nat → List Char → Nat → Res Nat
  | 0, _, _ => .unfinished
  | fuel + 1, f, replacen =>
    match strstr f replace_str with
    | none => .ok replacen
    | some n => count_loop replace_str fuel (f.drop (n + replace_str.length)) (replacen + 1)

/-- The copying loop of `replace` (lines 246-258), from the pointer `f` and
the bytes written to `rtn` so far. -/
def build_loop (replace_str buf1 : List Char) : Nat → List Char → List Char → Res (List Char)
  | 0, _, _ => .unfinished
  | fuel + 1, f, rtn =>
    match strstr f replace_str with
    | none => .ok (rtn ++ f)
    | some n =>
      build_loop replace_str buf1 fuel (f.drop (n + replace_str.length)) (rtn ++ f.take n ++ buf1)

/-- The output of `snprintf(buf1, nch + 1, "%d", runi + 1)`. -/
def buf1 (runi : Nat) : List Char := Nat.toDigits 10 (runi + 1)

/-- `replace` (lines 219-262) with the loop budget `fuel`; `s = none` is the
NULL pointer.  The buffer `rtn` is allocated with
`strlen(s) + replacen * (nch - strlen(cmd->replace_str)) + 1` bytes. -/
def replace_fuel (fuel : Nat) (_ : Conf) (cmd : Cmd) (s : Option (List Char)) (runi : Nat) :
    Res (Option (List Char)) :=
  match s with
  | none => .ok none
  | some s =>
    match cmd.replace_str with
    | none => .ok (some (cstr s))
    | some replace_str =>
      match count_loop (cstr replace_str) fuel (cstr s) 0 with
      | .fatal f => .fatal f
      | .unfinished => .unfinished
      | .ok _ =>
        match build_loop (cstr replace_str) (buf1 runi) fuel (cstr s) [] with
        | .fatal f => .fatal f
        | .unfinished => .unfinished
        | .ok rtn => .ok (some rtn)

/-- `replace` with a budget of one pass more than the template has bytes. -/
def replace (conf : Conf) (cmd : Cmd) (s : Option (List Char)) (runi : Nat) :
    Res (Option (List Char)) :=
  match s with
  | none => .ok none
  | some s => replace_fuel (strlen s + 1) conf cmd (some s) runi

/-! ## Executor (`execute_cmd`, `read_input`) -/

/-- What the operating system answers during one call of `execute_cmd`. -/
structure Env where
  /-- `popen(input_cmd, "r")` returns a stream. -/
  popen_input_ok : Bool
  /-- `tmpfile()` of `read_input` returns a stream. -/
  tmpfile_input_ok : Bool
  /-- The value of `pclose(cmdf)` in `read_input`. -/
  pclose_input : Int
  /-- `tmpfile()` of `execute_cmd` returns a stream. -/
  tmpfile_output_ok : Bool
  /-- The clock at the first `gettimeofday`, in microseconds. -/
  startt : Int
  /-- The value of `fork()` in the parent: the child's pid, or -1. -/
  pid : Int
  /-- The `status` stored by `wait4`. -/
  status : Int
  /-- The resource usage stored by `wait4`. -/
  ru : Rusage
  /-- The clock at the second `gettimeofday`, in microseconds. -/
  endt : Int
  /-- `popen(output_cmd, "w")` returns a stream. -/
  popen_output_ok : Bool
  /-- The value of `fcopy(outtmpf, cmdf)`. -/
  fcopy_output_ok : Bool
  /-- The value of `pclose(cmdf)` in `execute_cmd`. -/
  pclose_output : Int
deriving DecidableEq

/-- The effects of the parent process in `execute_cmd`, in program order. -/
inductive Effect where
  /-- Lines 75-79: the echo of the command on stderr. -/
  | echo
  /-- Line 165: `popen(input_cmd, "r")`, which spawns the input helper. -/
  | popen_input (input_cmd : List Char)
  /-- Line 166: `tmpfile()`, the temporary buffer of the input. -/
  | tmpfile_input
  /-- Line 170: `fcopy(cmdf, tmpf)`, the helper's output copied into the buffer. -/
  | fcopy_input
  /-- Line 171: `pclose(cmdf)`, which waits for the input helper. -/
  | pclose_input
  /-- Line 174: `fseek(tmpf, 0, SEEK_SET)`. -/
  | fseek_input
  /-- Line 88: `tmpfile()`, the capture buffer of the output. -/
  | tmpfile_output
  /-- Line 100: `gettimeofday(&startt, NULL)`. -/
  | gettimeofday_start
  /-- Line 101: `fork()`, which creates the timed child. -/
  | fork
  /-- Line 118: `wait4(pid, &status, 0, ru)`. -/
  | wait4 (pid : Int)
  /-- Line 120: `gettimeofday(&endt, NULL)`. -/
  | gettimeofday_end
  /-- Line 123: `fclose(tmpf)`. -/
  | fclose_input
  /-- Lines 132-133: `fflush(outtmpf)` and `fseek(outtmpf, 0, SEEK_SET)`. -/
  | rewind_output
  /-- Line 134: `popen(output_cmd, "w")`, which spawns the output sink. -/
  | popen_output (output_cmd : List Char)
  /-- Line 135: `fcopy(outtmpf, cmdf)`, the captured bytes streamed to the sink. -/
  | fcopy_output
  /-- Line 137: `pclose(cmdf)`, which waits for the output sink. -/
  | pclose_output
  /-- Line 140: `fclose(outtmpf)`. -/
  | fclose_output
deriving DecidableEq

/-- `read_input` (lines 160-180): its effects and whether it returns the stream. -/
def read_input (env : Env) (conf : Conf) (cmd : Cmd) (runi : Nat) : List Effect × Res Unit :=
  match cmd.input_cmd with
  | none => ([], .fatal (.assert_fail "cmd->input_cmd"))
  | some template =>
    match replace conf cmd (some template) runi with
    | .fatal f => ([], .fatal f)
    | .unfinished => ([], .unfinished)
    | .ok none => ([], .fatal (.assert_fail "cmd->input_cmd"))
    | .ok (some input_cmd) =>
      if ¬ env.popen_input_ok ∨ ¬ env.tmpfile_input_ok then
        ([.popen_input input_cmd, .tmpfile_input], .fatal (.input_cmd_err template))
      else if env.pclose_input ≠ 0 then
        ([.popen_input input_cmd, .tmpfile_input, .fcopy_input, .pclose_input],
          .fatal (.input_cmd_err template))
      else
        ([.popen_input input_cmd, .tmpfile_input, .fcopy_input, .pclose_input, .fseek_input],
          .ok ())

/-- Lines 82-83 of `execute_cmd`: the input is read when an input command is set. -/
def prepare_input (env : Env) (conf : Conf) (cmd : Cmd) (runi : Nat) : List Effect × Res Unit :=
  if cmd.input_cmd.isSome then read_input env conf cmd runi else ([], .ok ())

/-- Lines 131-142 of `execute_cmd`: the captured output piped to the output command. -/
def sink_output (env : Env) (output_cmd : Option (List Char)) : List Effect × Res Unit :=
  match output_cmd with
  | none => ([], .ok ())
  | some oc =>
    if ¬ env.popen_output_ok then
      ([.rewind_output, .popen_output oc], .fatal (.output_cmd_err oc))
    else if ¬ env.fcopy_output_ok then
      ([.rewind_output, .popen_output oc, .fcopy_output], .fatal (.output_cmd_err oc))
    else if env.pclose_output ≠ 0 then
      ([.rewind_output, .popen_output oc, .fcopy_output, .pclose_output],
        .fatal (.output_cmd_failed oc))
    else
      ([.rewind_output, .popen_output oc, .fcopy_output, .pclose_output, .fclose_output],
        .ok ())

/-- Lines 93-126 of `execute_cmd` in the parent: the run slot `runi` of `cmd`
filled with the resource usage and the duration `endt - startt`. -/
def fill_slot (env : Env) (cmd : Cmd) (runi : Nat) : Cmd :=
  { cmd with
    rusages := cmd.rusages.set runi (some env.ru)
    timevals := cmd.timevals.set runi (some (env.endt - env.startt)) }

/-- `execute_cmd` (lines 73-151) in the parent process: its effects in program
order, and the command with the run slot filled when it returns. -/
def execute_cmd (env : Env) (conf : Conf) (cmd : Cmd) (runi : Nat) : List Effect × Res Cmd :=
  let t0 : List Effect := if conf.verbosity > 0 then [.echo] else []
  match prepare_input env conf cmd runi with
  | (t1, .fatal f) => (t0 ++ t1, .fatal f)
  | (t1, .unfinished) => (t0 ++ t1, .unfinished)
  | (t1, .ok ()) =>
    match replace conf cmd cmd.output_cmd runi with
    | .fatal f => (t0 ++ t1, .fatal f)
    | .unfinished => (t0 ++ t1, .unfinished)
    | .ok output_cmd =>
      let t2 : List Effect := if output_cmd.isSome then [.tmpfile_output] else []
      if output_cmd.isSome ∧ ¬ env.tmpfile_output_ok then
        (t0 ++ t1 ++ t2, .fatal (.cmd_err cmd.argv.head?))
      else
        let t3 : List Effect :=
          [.gettimeofday_start, .fork, .wait4 env.pid, .gettimeofday_end]
        let t4 : List Effect := if cmd.input_cmd.isSome then [.fclose_input] else []
        match sink_output env output_cmd with
        | (t5, .fatal f) => (t0 ++ t1 ++ t2 ++ t3 ++ t4 ++ t5, .fatal f)
        | (t5, .unfinished) => (t0 ++ t1 ++ t2 ++ t3 ++ t4 ++ t5, .unfinished)
        | (t5, .ok ()) => (t0 ++ t1 ++ t2 ++ t3 ++ t4 ++ t5, .ok (fill_slot env cmd runi))

/-! ## Scheduler (the loop of `main`, lines 636-663) -/

/-- Lines 642-646: some run of `cmd` has not been executed. -/
def has_free_run (num_runs : Nat) (cmd : Cmd) : Bool :=
  (List.range num_runs).any fun j => cmd.rusages[j]? = some none

/-- Lines 639-648: commands are drawn until one has a run not yet executed.
From the raw values `random()` returns, the index of the command and the
values not yet consumed. -/
def find_cmd (conf : Conf) : List Nat → Res (Nat × List Nat)
  | [] => .unfinished
  | x :: draws =>
    if conf.num_cmds = 0 then .fatal .sigfpe
    else
      match conf.cmds[x % conf.num_cmds]? with
      | none => .fatal .sigfpe
      | some cmd =>
        if has_free_run conf.num_runs cmd then .ok (x % conf.num_cmds, draws)
        else find_cmd conf draws

/-- Lines 652-656: run indices are drawn until one has not been executed. -/
def find_run (conf : Conf) (cmd : Cmd) : List Nat → Res (Nat × List Nat)
  | [] => .unfinished
  | x :: draws =>
    if conf.num_runs = 0 then .fatal .sigfpe
    else if cmd.rusages[x % conf.num_runs]? = some none then .ok (x % conf.num_runs, draws)
    else find_run conf cmd draws

/-- What the scheduling loop does, in order. -/
inductive Event where
  /-- The call `execute_cmd(conf, conf->cmds[ci], runi)`, with the
  configuration as it is at the call. -/
  | executed (conf : Conf) (ci runi : Nat)
  /-- The call of `usleep`, with the value of its argument expression. -/
  | slept (usec : Nat)
deriving DecidableEq

/-- The scheduling loop (lines 636-663) with `n` passes left, `i` the loop
counter; `envs i` is what the operating system answers in pass `i`, `draws`
the raw values `random()` returns.  The macro `RANDN(n)` is `(random() % n)`
with `n` pasted unparenthesised, so the argument of `usleep` at line 662,
`RANDN(conf->sleep * 1000000)`, is `(random() % conf->sleep * 1000000)`, which C
reads as `(random() % conf->sleep) * 1000000`. -/
def main_loop (envs : Nat → Env) : Nat → Nat → Conf → List Nat → List Event →
    Res (Conf × List Event)
  | 0, _, conf, _, trace => .ok (conf, trace)
  | n + 1, i, conf, draws, trace =>
    match find_cmd conf draws with
    | .fatal f => .fatal f
    | .unfinished => .unfinished
    | .ok (ci, draws1) =>
      match conf.cmds[ci]? with
      | none => .fatal .sigfpe
      | some cmd =>
        match find_run conf cmd draws1 with
        | .fatal f => .fatal f
        | .unfinished => .unfinished
        | .ok (runi, draws2) =>
          match (execute_cmd (envs i) conf cmd runi).2 with
          | .fatal f => .fatal f
          | .unfinished => .unfinished
          | .ok cmd1 =>
            if i + 1 < conf.num_runs ∧ conf.sleep > 0 then
              match draws2 with
              | [] => .unfinished
              | x :: draws3 =>
                main_loop envs n (i + 1) { conf with cmds := conf.cmds.set ci cmd1 } draws3
                  (trace ++ [.executed conf ci runi, .slept ((x % conf.sleep) * 1000000)])
            else
              main_loop envs n (i + 1) { conf with cmds := conf.cmds.set ci cmd1 } draws2
                (trace ++ [.executed conf ci runi])

/-- The scheduling loop of `main` from its start. -/
def schedule (envs : Nat → Env) (conf : Conf) (draws : List Nat) : Res (Conf × List Event) :=
  main_loop envs (conf.num_cmds * conf.num_runs) 0 conf draws []

/-- The calls of `execute_cmd` in a trace, in order. -/
def calls : List Event → List (Conf × Nat × Nat)
  | [] => []
  | .executed conf ci runi :: rest => (conf, ci, runi) :: calls rest
  | .slept _ :: rest => calls rest

/-- The run slot `conf->cmds[ci]->rusages[runi]`; `some none` is the NULL
pointer of an empty slot. -/
def slot (conf : Conf) (ci runi : Nat) : Option (Option Rusage) :=
  match conf.cmds[ci]? with
  | none => none
  | some cmd => cmd.rusages[runi]?

/-- The run slot `runi` of command `ci` is empty (`rusages[runi] == NULL`). -/
def slot_empty (conf : Conf) (ci runi : Nat) : Prop :=
  slot conf ci runi = some none

/-- The run slot `runi` of command `ci` is filled. -/
def slot_filled (conf : Conf) (ci runi : Nat) : Prop :=
  ∃ ru, slot conf ci runi = some (some ru)

/-- An operating system in which every helper and every call succeeds. -/
def env_ok : Env :=
  { popen_input_ok := true, tmpfile_input_ok := true, pclose_input := 0,
    tmpfile_output_ok := true, startt := 100, pid := 4242, status := 0,
    ru := { ru_utime := 1, ru_stime := 1, ru_maxrss := 1 }, endt := 350,
    popen_output_ok := true, fcopy_output_ok := true, pclose_output := 0 }

/-- Two commands `ls` and `pwd`, two runs each, every slot empty. -/
def conf_2x2 : Conf :=
  { conf0 2 with cmds := [{ new_cmd 2 with argv := [['l', 's']] },
                          { new_cmd 2 with argv := [['p', 'w', 'd']] }] }

/-! ## Reference descriptions of the batch syntax -/

/-- A flag at the front of a batch line. -/
inductive Flag where
  /-- `-I v`: the placeholder. -/
  | I (v : List Char)
  /-- `-i v`: the input command. -/
  | i (v : List Char)
  /-- `-o v`: the output command. -/
  | o (v : List Char)
  /-- `-q`: quiet. -/
  | q
deriving DecidableEq

/-- The tokens a flag is written with. -/
def Flag.tokens : Flag → List (List Char)
  | .I v => [['-', 'I'], v]
  | .i v => [['-', 'i'], v]
  | .o v => [['-', 'o'], v]
  | .q => [['-', 'q']]

/-- What a flag sets in the command. -/
def Flag.set : Flag → Cmd → Cmd
  | .I v, cmd => { cmd with replace_str := some v }
  | .i v, cmd => { cmd with input_cmd := some v }
  | .o v, cmd => { cmd with output_cmd := some v }
  | .q, cmd => { cmd with quiet := true }

/-- The tokens of a sequence of flags, in order. -/
def flag_tokens : List Flag → List (List Char)
  | [] => []
  | f :: fs => f.tokens ++ flag_tokens fs

/-- The command after a sequence of flags was set, in order. -/
def set_flags : List Flag → Cmd → Cmd
  | [], cmd => cmd
  | f :: fs, cmd => set_flags fs (f.set cmd)

/-- A piece of the text of a token: a byte written as itself, or a backslash
followed by a byte. -/
inductive Piece where
  | plain (c : Char)
  | escaped (c : Char)
deriving DecidableEq

/-- The text a piece is written with. -/
def Piece.text : Piece → List Char
  | .plain c => [c]
  | .escaped c => ['\\', c]

/-- The byte a piece stands for: NUL for `\0`, line feed for `\n`, carriage
return for `\r` and for `\t`, the byte itself otherwise. -/
def Piece.byte : Piece → Char
  | .plain c => c
  | .escaped c =>
    if c = '0' then NUL else if c = 'n' then '\n' else if c = 'r' then '\r'
    else if c = 't' then '\r' else c

/-- A piece that does not end a token opened with `qc` (NUL: no quote): any
escaped byte, and any plain byte but the backslash, the line terminators, and
the closing quote (quoted token) or the space (unquoted token). -/
def Piece.inside (qc : Char) : Piece → Prop
  | .plain c => c ≠ '\\' ∧ c ≠ '\n' ∧ c ≠ '\r' ∧ (if qc = NUL then c ≠ ' ' else c ≠ qc)
  | .escaped _ => True

instance (qc : Char) (p : Piece) : Decidable (p.inside qc) := by
  cases p <;> unfold Piece.inside <;> infer_instance

/-- The text of a sequence of pieces. -/
def pieces_text : List Piece → List Char
  | [] => []
  | p :: ps => p.text ++ pieces_text ps

/-- The bytes a sequence of pieces stands for. -/
def pieces_bytes : List Piece → List Char
  | [] => []
  | p :: ps => p.byte :: pieces_bytes ps

/-! ## Reference substitution -/

/-- The reference substitution, scanning `s` from left to right with `skip`
bytes of an occurrence already found still to pass over: where the placeholder
`p` occurs it is replaced by `d` and the scan goes on after the occurrence,
every other byte is kept. -/
def subst_from (p d : List Char) : Nat → List Char → List Char
  | _, [] => []
  | skip + 1, _ :: s => subst_from p d skip s
  | 0, c :: s =>
    if starts_with (c :: s) p then d ++ subst_from p d (p.length - 1) s
    else c :: subst_from p d 0 s

/-- The template `s` with every non-overlapping occurrence of `p`, found
scanning left to right, replaced by `d`. -/
def subst_ref (p d s : List Char) : List Char := subst_from p d 0 s

/-- The number of occurrences the scan of `subst_from` replaces. -/
def count_from (p : List Char) : Nat → List Char → Nat
  | _, [] => 0
  | skip + 1, _ :: s => count_from p skip s
  | 0, c :: s =>
    if starts_with (c :: s) p then 1 + count_from p (p.length - 1) s
    else count_from p 0 s

/-- The number of non-overlapping occurrences of `p` in `s`, counted scanning
left to right. -/
def count_ref (p s : List Char) : Nat := count_from p 0 s

/-! ## Classes of effects -/

/-- An effect of the input helper: spawning it, copying its output into the
temporary buffer, waiting for its exit. -/
def Effect.input_helper : Effect → Bool
  | .popen_input _ => true
  | .fcopy_input => true
  | .pclose_input => true
  | _ => false

/-- An effect of the output sink: spawning it, streaming the captured bytes to
it, waiting for its exit. -/
def Effect.output_sink : Effect → Bool
  | .popen_output _ => true
  | .fcopy_output => true
  | .pclose_output => true
  | _ => false

/-- The two timestamps, the creation of the timed child and the wait for it. -/
def Effect.timed : Effect → Bool
  | .gettimeofday_start => true
  | .fork => true
  | .wait4 _ => true
  | .gettimeofday_end => true
  | _ => false

/-- A command with an input helper, an output sink and a placeholder. -/
def cmd_helpers : Cmd :=
  { new_cmd 1 with argv := [['w', 'c']], input_cmd := some "gen %".toList,
                   output_cmd := some "cmp out%".toList, replace_str := some ['%'] }

/-- Raw values of `random()` under which the schedule of `conf_2x2` completes. -/
def draws_2x2 : List Nat := [0, 1, 7, 0, 0, 1, 0, 3, 1]

/-- The configuration and the trace the scheduling loop ends with on `conf_2x2`. -/
def result_2x2 : Conf × List Event :=
  match schedule (fun _ => env_ok) conf_2x2 draws_2x2 with
  | .ok r => r
  | _ => (conf_2x2, [])

/-! ## The child process of `execute_cmd` -/

/-- Where the standard output of the timed command goes. -/
inductive Stdout where
  /-- The standard output the harness was started with. -/
  | inherited
  /-- `/dev/null`. -/
  | dev_null
  /-- The capture buffer `outtmpf`. -/
  | capture
deriving DecidableEq

/-- What the operating system answers in the child process (lines 102-113). -/
structure ChildEnv where
  /-- `dup2(fileno(tmpf), STDIN_FILENO)` does not return -1. -/
  dup2_stdin_ok : Bool
  /-- `freopen("/dev/null", "w", stdout)` does not return NULL. -/
  freopen_ok : Bool
  /-- `dup2(fileno(outtmpf), STDOUT_FILENO)` does not return -1. -/
  dup2_stdout_ok : Bool
  /-- `execvp` replaces the process image (it does not return). -/
  execvp_ok : Bool
deriving DecidableEq

/-- The child's side of `fork` in `execute_cmd` (lines 102-113): `tmpf` tells
whether the input buffer exists, `output_cmd` is the expanded output command.
The result is the standard output the timed command runs with once `execvp`
has replaced the process image, or the fatal exit at `cmd_err`. -/
def execute_cmd_child (cenv : ChildEnv) (cmd : Cmd) (tmpf : Bool)
    (output_cmd : Option (List Char)) : Res Stdout :=
  if tmpf ∧ ¬ cenv.dup2_stdin_ok then .fatal (.cmd_err cmd.argv.head?)
  else if cmd.quiet ∧ ¬ cenv.freopen_ok then .fatal (.cmd_err cmd.argv.head?)
  else
    let out1 : Stdout := if cmd.quiet then .dev_null else .inherited
    if output_cmd.isSome ∧ ¬ cenv.dup2_stdout_ok then .fatal (.cmd_err cmd.argv.head?)
    else
      let out2 : Stdout := if output_cmd.isSome then .capture else out1
      if cenv.execvp_ok then .ok out2 else .fatal (.cmd_err cmd.argv.head?)

/-- The destination the standard output of the timed child should have:
discarded when quiet is set, otherwise the capture buffer when an output
command is configured, otherwise inherited. -/
def stdout_ref (quiet : Bool) (output_cmd : Option (List Char)) : Stdout :=
  if quiet then .dev_null else if output_cmd.isSome then .capture else .inherited

/-- A child process in which every call succeeds. -/
def cenv_ok : ChildEnv :=
  { dup2_stdin_ok := true, freopen_ok := true, dup2_stdout_ok := true, execvp_ok := true }

/-- The command of the batch line `-q -o cat ls`: quiet, with the output
command `cat`. -/
def cmd_quiet_out : Cmd :=
  { new_cmd 1 with quiet := true, output_cmd := some ['c', 'a', 't'], argv := [['l', 's']] }

/-- The first command of a configuration. -/
def first_cmd (r : Res Conf) : Option Cmd :=
  match r with
  | .ok conf => conf.cmds.head?
  | _ => none

/-! ## Integer expressions (`RANDN`, the `-n` option of `main`) -/

/-- `INT_MAX` of `<limits.h>` (32-bit `int`). -/
def INT_MAX : Int := 2147483647

/-- `UINT_MAX` of `<limits.h>`. -/
def UINT_MAX : Int := 4294967295

/-- `INTMAX_MAX` of `<stdint.h>` (64-bit `intmax_t` and `long`). -/
def INTMAX_MAX : Int := 9223372036854775807

/-- `INTMAX_MIN` of `<stdint.h>`. -/
def INTMAX_MIN : Int := -9223372036854775808

/-- The value of an integer as a C `int`: reduction modulo 2^32 into the
signed range. -/
def to_int (z : Int) : Int := (z + 2147483648) % 4294967296 - 2147483648

/-- `RANDN(n)` (lines 59-63), `(random() % n)`, for an argument `n` that is a
single operand and the raw value `x` of `random()`: the C remainder `x % n`,
which truncates toward zero; `none` is the division by zero. -/
def RANDN (x : Nat) (n : Int) : Option Int :=
  if n = 0 then none else some (Int.tmod (x : Int) n)

/-- The argument of `usleep` at line 662, `RANDN(conf->sleep * 1000000)`.  The
macro pastes its argument without parentheses: the expression is
`(random() % conf->sleep * 1000000)`, which C reads as
`(random() % conf->sleep) * 1000000`, computed in `long`. -/
def sleep_usec (sleep : Int) (x : Nat) : Option Int :=
  match RANDN x sleep with
  | none => none
  | some r => some (r * 1000000)

/-- The arguments of the calls of `usleep` in a trace, in order. -/
def sleep_durations : List Event → List Nat
  | [] => []
  | .executed _ _ _ :: rest => sleep_durations rest
  | .slept usec :: rest => usec :: sleep_durations rest

/-- `strtoimax` of libc on a numeral of decimal value `v`: the value, clamped
to the range of `intmax_t`, and whether `errno` is set to `ERANGE`. -/
def strtoimax (v : Int) : Int × Bool :=
  if v > INTMAX_MAX then (INTMAX_MAX, true)
  else if v < INTMAX_MIN then (INTMAX_MIN, true)
  else (v, false)

/-- The `-n` case of `main` (lines 544-554) for an argument that is a numeral
of decimal value `v`: `none` is `usage(1, "'num runs' out of range.")`,
`some n` is the value stored in `conf->num_runs`. -/
def opt_n (v : Int) : Option Int :=
  let lval := (strtoimax v).1
  let erange := (strtoimax v).2
  if (erange ∧ (lval = INTMAX_MIN ∨ lval = INTMAX_MAX)) ∨ lval ≤ 0 ∨ lval ≥ UINT_MAX then none
  else some (to_int lval)

/-! ## Reference description of the failures of flag stripping -/

/-- A non-empty token that starts with `-`. -/
def dash_token (t : List Char) : Bool := cstr t ≠ [] ∧ (cstr t).head? = some '-'

/-- The string of the token is one of `-I`, `-i`, `-o`. -/
def valued_flag (t : List Char) : Bool :=
  cstr t = ['-', 'I'] ∨ cstr t = ['-', 'i'] ∨ cstr t = ['-', 'o']

/-- Scanning the tokens of a line from the front, a flag with a value passing
over its value: before any token that does not start with `-`, the scan
reaches a token starting with `-` that is none of `-I`, `-i`, `-o`, `-q`, or
one of `-I`, `-i`, `-o` as the last token. -/
def flags_fail : List (List Char) → Bool
  | [] => false
  | t :: rest =>
    if valued_flag t then
      match rest with
      | [] => true
      | _ :: rest2 => flags_fail rest2
    else if cstr t = ['-', 'q'] then flags_fail rest
    else dash_token t

/-- Whether the events of the scheduling loop are sleeps, in order. -/
def sleeps : List Event → List Bool
  | [] => []
  | .executed _ _ _ :: rest => false :: sleeps rest
  | .slept _ :: rest => true :: sleeps rest

/-- The fatal exits of `parse_batch` that report a malformed batch file. -/
def Fatal.is_parse_error : Fatal → Bool
  | .parse_err _ _ => true
  | .requires_argument _ => true
  | .unknown_option _ => true
  | _ => false

/-- The text of the quoted token `"a\tb"` followed by a space and `x`. -/
def token_text : List Char := ['"', 'a', '\\', 't', 'b', '"', ' ', 'x']

/-! ## Passes of the loops of `parse_batch` -/

/-- One pass of the token loop (lines 320-407) that goes on to a next pass:
from the unread bytes and `argv` at the top of a pass, those at the top of the
next one; `none` when the loop ends or the process exits. -/
def tok_pass (lineno : Nat) : List Char × List (List Char) → Option (List Char × List (List Char))
  | ([], _) => none
  | (c :: rest, argv) =>
    if c = '\n' ∨ c = '\r' then none
    else if (skip_space (c :: rest)).length < (c :: rest).length then
      some (skip_space (c :: rest), argv)
    else
      match parse_arg lineno (c :: rest) with
      | .ok (arg, bd2) => some (bd2, argv ++ [arg])
      | _ => none

/-- The state of the token loop after `m` passes, when it makes that many. -/
def tok_reach (lineno : Nat) : Nat → List Char × List (List Char) →
    Option (List Char × List (List Char))
  | 0, s => some s
  | m + 1, s =>
    match tok_pass lineno s with
    | none => none
    | some s1 => tok_reach lineno m s1

/-- One pass of the line loop (lines 294-459) that goes on to a next pass:
from `lineno`, the unread bytes and the commands at the top of a pass, those
at the top of the next one; `none` when the loop ends or the process exits. -/
def line_pass (num_runs : Nat) : Nat × List Char × List Cmd → Option (Nat × List Char × List Cmd)
  | (lineno, bd, cmds) =>
    match skip_blank bd with
    | [] => none
    | c :: rest =>
      if c = '\n' ∨ c = '\r' then some (if c = '\n' then lineno + 1 else lineno, rest, cmds)
      else if c = '#' then
        match skip_comment rest with
        | [] => none
        | d :: rest2 => some (lineno, d :: rest2, cmds)
      else
        match parse_args lineno ((c :: rest).length + 1) (c :: rest) [] with
        | .ok (argv, bd2) =>
          match make_cmd num_runs argv with
          | .ok cmd => some (lineno, bd2, cmds ++ [cmd])
          | _ => none
        | _ => none

/-- The state of the line loop after `k` passes, when it makes that many. -/
def line_reach (num_runs : Nat) : Nat → Nat × List Char × List Cmd →
    Option (Nat × List Char × List Cmd)
  | 0, s => some s
  | k + 1, s =>
    match line_pass num_runs s with
    | none => none
    | some s1 => line_reach num_runs k s1

/-- A batch text whose second line holds the unterminated token `"abc`. -/
def text_unterminated : List Char := "ls -l\necho \"abc\nx".toList

/-! # Theorems -/

/-! ## Scheduler: exact-once coverage -/

theorem execute_cmd_ok {env : Env} {conf : Conf} {cmd cmd1 : Cmd} {runi : Nat}
    (h : (execute_cmd env conf cmd runi).2 = .ok cmd1) : cmd1 = fill_slot env cmd runi := by
  unfold execute_cmd at h
  simp only [] at h
  split at h
  · simp at h
  · simp at h
  · split at h
    · simp at h
    · simp at h
    · split at h
      · simp at h
      · split at h
        · simp at h
        · simp at h
        · simpa using h.symm

theorem find_cmd_ok {conf : Conf} : ∀ {draws draws1 : List Nat} {ci : Nat},
    find_cmd conf draws = .ok (ci, draws1) →
    ci < conf.num_cmds ∧ ∃ cmd, conf.cmds[ci]? = some cmd := by
  intro draws
  induction draws with
  | nil => intro _ _ h; simp [find_cmd] at h
  | cons x draws ih =>
    intro draws1 ci h
    unfold find_cmd at h
    split at h
    · simp at h
    · rename_i hz
      split at h
      · simp at h
      · rename_i cmd hc
        split at h
        · simp only [Res.ok.injEq, Prod.mk.injEq] at h
          obtain ⟨rfl, _⟩ := h
          exact ⟨Nat.mod_lt _ (Nat.pos_of_ne_zero hz), cmd, hc⟩
        · exact ih h

theorem find_run_ok {conf : Conf} {cmd : Cmd} : ∀ {draws draws1 : List Nat} {runi : Nat},
    find_run conf cmd draws = .ok (runi, draws1) →
    runi < conf.num_runs ∧ cmd.rusages[runi]? = some none := by
  intro draws
  induction draws with
  | nil => intro _ _ h; simp [find_run] at h
  | cons x draws ih =>
    intro draws1 runi h
    unfold find_run at h
    split at h
    · simp at h
    · rename_i hz
      split at h
      · rename_i hs
        simp only [Res.ok.injEq, Prod.mk.injEq] at h
        obtain ⟨rfl, _⟩ := h
        exact ⟨Nat.mod_lt _ (Nat.pos_of_ne_zero hz), hs⟩
      · exact ih h

theorem calls_append (t1 t2 : List Event) : calls (t1 ++ t2) = calls t1 ++ calls t2 := by
  induction t1 with
  | nil => rfl
  | cons e t1 ih => cases e <;> simp [calls, ih]

/-- The slot read after the slot `(ci, runi)` of an existing command was filled. -/
theorem slot_after_fill {conf : Conf} {cmd : Cmd} {env : Env} {ci runi : Nat}
    (hc : conf.cmds[ci]? = some cmd) (hr : cmd.rusages[runi]? = some none) (c r : Nat) :
    slot { conf with cmds := conf.cmds.set ci (fill_slot env cmd runi) } c r
      = if c = ci ∧ r = runi then some (some env.ru) else slot conf c r := by
  have hci : ci < conf.cmds.length := by
    by_contra hlt
    rw [List.getElem?_eq_none (by omega)] at hc
    exact absurd hc (by simp)
  have hri : runi < cmd.rusages.length := by
    by_contra hlt
    rw [List.getElem?_eq_none (by omega)] at hr
    exact absurd hr (by simp)
  unfold slot
  by_cases h1 : c = ci
  · subst h1
    simp only [List.getElem?_set_self hci, hc, true_and]
    by_cases h2 : r = runi
    · subst h2
      simp [fill_slot, List.getElem?_set_self hri]
    · simp [fill_slot, h2, List.getElem?_set_ne (Ne.symm h2)]
  · simp [h1, List.getElem?_set_ne (Ne.symm h1)]

/-- One pass of the scheduling loop keeps the invariant: the filled slots are
the pairs called so far, no pair was called twice, every call met an empty slot. -/
theorem sched_step {C R : Nat} {conf : Conf} {cmd : Cmd} (env : Env) {ci runi : Nat}
    {trace : List Event} (trace1 : List Event)
    (hC : conf.num_cmds = C)
    (hfill : ∀ c r, c < C → r < R →
      (slot_filled conf c r ↔ (c, r) ∈ (calls trace).map Prod.snd))
    (hnd : ((calls trace).map Prod.snd).Nodup)
    (hcalls : ∀ x ∈ calls trace, slot_empty x.1 x.2.1 x.2.2 ∧ x.2.1 < C ∧ x.2.2 < R)
    (hci : ci < C) (hri : runi < R)
    (hc : conf.cmds[ci]? = some cmd) (hr : cmd.rusages[runi]? = some none)
    (ht : calls trace1 = calls trace ++ [(conf, ci, runi)]) :
    ({ conf with cmds := conf.cmds.set ci (fill_slot env cmd runi) } : Conf).num_cmds = C ∧
    (∀ c r, c < C → r < R →
      (slot_filled { conf with cmds := conf.cmds.set ci (fill_slot env cmd runi) } c r
        ↔ (c, r) ∈ (calls trace1).map Prod.snd)) ∧
    ((calls trace1).map Prod.snd).Nodup ∧
    (∀ x ∈ calls trace1, slot_empty x.1 x.2.1 x.2.2 ∧ x.2.1 < C ∧ x.2.2 < R) ∧
    (calls trace1).length = (calls trace).length + 1 := by
  have hslot : slot conf ci runi = some none := by simp [slot, hc, hr]
  have hnot : (ci, runi) ∉ (calls trace).map Prod.snd := by
    intro hmem
    obtain ⟨ru, hru⟩ := (hfill ci runi hci hri).2 hmem
    rw [hslot] at hru
    simp at hru
  refine ⟨by simpa [Conf.num_cmds] using hC, ?_, ?_, ?_, by simp [ht]⟩
  · intro c r hc1 hr1
    unfold slot_filled
    rw [slot_after_fill hc hr, ht]
    by_cases h : c = ci ∧ r = runi
    · obtain ⟨rfl, rfl⟩ := h
      simp
    · have h2 : (c, r) ≠ (ci, runi) := by
        intro heq
        exact h (by simpa using heq)
      simp only [h, if_false, List.map_append, List.map_cons, List.map_nil, List.mem_append,
        List.mem_singleton, h2, or_false]
      exact hfill c r hc1 hr1
  · rw [ht, List.map_append, List.nodup_append]
    refine ⟨hnd, by simp, ?_⟩
    intro a ha hb
    simp only [List.map_cons, List.map_nil, List.mem_singleton] at hb
    subst hb
    exact hnot ha
  · intro x hx
    rw [ht, List.mem_append, List.mem_singleton] at hx
    rcases hx with hx | rfl
    · exact hcalls x hx
    · exact ⟨hslot, hci, hri⟩

/-- The invariant of the scheduling loop, over any number of passes. -/
theorem main_loop_inv (envs : Nat → Env) (C R : Nat) :
    ∀ (n i : Nat) (conf : Conf) (draws : List Nat) (trace : List Event)
      (conf1 : Conf) (trace1 : List Event),
    conf.num_cmds = C → conf.num_runs = R →
    (∀ c r, c < C → r < R →
      (slot_filled conf c r ↔ (c, r) ∈ (calls trace).map Prod.snd)) →
    ((calls trace).map Prod.snd).Nodup →
    (∀ x ∈ calls trace, slot_empty x.1 x.2.1 x.2.2 ∧ x.2.1 < C ∧ x.2.2 < R) →
    main_loop envs n i conf draws trace = .ok (conf1, trace1) →
    (∀ c r, c < C → r < R →
      (slot_filled conf1 c r ↔ (c, r) ∈ (calls trace1).map Prod.snd)) ∧
    ((calls trace1).map Prod.snd).Nodup ∧
    (∀ x ∈ calls trace1, slot_empty x.1 x.2.1 x.2.2 ∧ x.2.1 < C ∧ x.2.2 < R) ∧
    (calls trace1).length = (calls trace).length + n := by
  intro n
  induction n with
  | zero =>
    intro i conf draws trace conf1 trace1 _ _ hfill hnd hcalls hrun
    simp only [main_loop, Res.ok.injEq, Prod.mk.injEq] at hrun
    obtain ⟨rfl, rfl⟩ := hrun
    exact ⟨hfill, hnd, hcalls, rfl⟩
  | succ n ih =>
    intro i conf draws trace conf1 trace1 hC hR hfill hnd hcalls hrun
    unfold main_loop at hrun
    split at hrun
    · simp at hrun
    · simp at hrun
    · rename_i ci draws1 hfc
      obtain ⟨hci, _⟩ := find_cmd_ok hfc
      split at hrun
      · simp at hrun
      · rename_i cmd hc
        split at hrun
        · simp at hrun
        · simp at hrun
        · rename_i runi draws2 hfr
          obtain ⟨hri, hr⟩ := find_run_ok hfr
          split at hrun
          · simp at hrun
          · simp at hrun
          · rename_i cmd1 hex
            have hcmd1 := execute_cmd_ok hex
            subst hcmd1
            rw [hC] at hci
            rw [hR] at hri
            split at hrun
            · split at hrun
              · simp at hrun
              · rename_i x draws3
                obtain ⟨h1, h2, h3, h4, h5⟩ := sched_step (envs i)
                  (trace ++ [.executed conf ci runi,
                    .slept ((x % conf.sleep) * 1000000)])
                  hC hfill hnd hcalls hci hri hc hr (by simp [calls_append, calls])
                obtain ⟨k1, k2, k3, k4⟩ := ih _ _ _ _ _ _ h1 hR h2 h3 h4 hrun
                exact ⟨k1, k2, k3, by omega⟩
            · obtain ⟨h1, h2, h3, h4, h5⟩ := sched_step (envs i)
                (trace ++ [.executed conf ci runi])
                hC hfill hnd hcalls hci hri hc hr (by simp [calls_append, calls])
              obtain ⟨k1, k2, k3, k4⟩ := ih _ _ _ _ _ _ h1 hR h2 h3 h4 hrun
              exact ⟨k1, k2, k3, by omega⟩

/-- Pairs without repetition in `[0, C) × [0, R)`, `C * R` of them, are all the pairs. -/
theorem pairs_cover {C R : Nat} {ps : List (Nat × Nat)} (hnd : ps.Nodup)
    (hrange : ∀ p ∈ ps, p.1 < C ∧ p.2 < R) (hlen : ps.length = C * R)
    {c r : Nat} (hc : c < C) (hr : r < R) : (c, r) ∈ ps := by
  have hsub : ps.toFinset ⊆ Finset.range C ×ˢ Finset.range R := by
    intro p hp
    rw [List.mem_toFinset] at hp
    simpa using hrange p hp
  have hcard : (Finset.range C ×ˢ Finset.range R).card ≤ ps.toFinset.card := by
    rw [List.toFinset_card_of_nodup hnd, hlen]
    simp
  have heq := Finset.eq_of_subset_of_card_le hsub hcard
  have : (c, r) ∈ ps.toFinset := by
    rw [heq]
    simp [hc, hr]
  simpa using this

/-- C1: exact-once coverage.  For every configuration whose run slots
`(ci, runi)` with `ci < num_cmds`, `runi < num_runs` are all empty, and every
sequence of values of `random()` and answers of the operating system under
which the scheduling loop of `main` runs to completion, `execute_cmd` is called
exactly `num_cmds * num_runs` times, every call is on a pair whose slot is empty
in the configuration at that call, no pair is called twice, and at the end every
slot `(ci, runi)` in range is filled. -/
theorem schedule_exact_once (envs : Nat → Env) (conf : Conf) (draws : List Nat)
    (conf1 : Conf) (trace : List Event)
    (hempty : ∀ ci runi, ci < conf.num_cmds → runi < conf.num_runs → slot_empty conf ci runi)
    (hrun : schedule envs conf draws = .ok (conf1, trace)) :
    (calls trace).length = conf.num_cmds * conf.num_runs ∧
    (∀ x ∈ calls trace, x.2.1 < conf.num_cmds ∧ x.2.2 < conf.num_runs ∧
      slot_empty x.1 x.2.1 x.2.2) ∧
    ((calls trace).map Prod.snd).Nodup ∧
    (∀ ci runi, ci < conf.num_cmds → runi < conf.num_runs → slot_filled conf1 ci runi) := by
  obtain ⟨h1, h2, h3, h4⟩ := main_loop_inv envs conf.num_cmds conf.num_runs _ _ _ _ _ _ _
    rfl rfl
    (fun c r hc hr => by
      have := hempty c r hc hr
      unfold slot_empty at this
      simp [calls, slot_filled, this])
    (by simp [calls]) (by simp [calls]) hrun
  simp only [calls, List.length_nil, Nat.zero_add] at h4
  refine ⟨h4, fun x hx => ⟨(h3 x hx).2.1, (h3 x hx).2.2, (h3 x hx).1⟩, h2, ?_⟩
  intro ci runi hci hri
  refine (h1 ci runi hci hri).2 (pairs_cover h2 ?_ (by simpa using h4) hci hri)
  intro p hp
  obtain ⟨x, hx, rfl⟩ := List.mem_map.1 hp
  exact (h3 x hx).2


/-- Witness of C1: two commands, two runs each; the calls are on `(0, 1)`,
`(0, 0)`, `(1, 0)`, `(1, 1)`. -/
theorem schedule_exact_once_witness :
    (∀ ci runi, ci < conf_2x2.num_cmds → runi < conf_2x2.num_runs →
      slot_empty conf_2x2 ci runi) ∧
    schedule (fun _ => env_ok) conf_2x2 draws_2x2 = .ok (result_2x2.1, result_2x2.2) ∧
    ((calls result_2x2.2).length = conf_2x2.num_cmds * conf_2x2.num_runs ∧
      (∀ x ∈ calls result_2x2.2, x.2.1 < conf_2x2.num_cmds ∧ x.2.2 < conf_2x2.num_runs ∧
        slot_empty x.1 x.2.1 x.2.2) ∧
      ((calls result_2x2.2).map Prod.snd).Nodup ∧
      (∀ ci runi, ci < conf_2x2.num_cmds → runi < conf_2x2.num_runs →
        slot_filled result_2x2.1 ci runi)) ∧
    (calls result_2x2.2).map Prod.snd = [(0, 1), (0, 0), (1, 0), (1, 1)] :=
  have hempty : ∀ ci runi, ci < conf_2x2.num_cmds → runi < conf_2x2.num_runs →
      slot_empty conf_2x2 ci runi := by
    intro ci runi h1 h2
    have h1 : ci < 2 := h1
    have h2 : runi < 2 := h2
    interval_cases ci <;> interval_cases runi <;> rfl
  have hrun : schedule (fun _ => env_ok) conf_2x2 draws_2x2
      = .ok (result_2x2.1, result_2x2.2) := by decide
  ⟨hempty, hrun,
   schedule_exact_once (fun _ => env_ok) conf_2x2 draws_2x2 result_2x2.1 result_2x2.2
     hempty hrun,
   by decide⟩

/-! ## Batch parser: tokens -/

theorem measure_arg_plain (lineno : Nat) (qc c : Char) (rest : List Char) (argsz : Nat)
    (h : Piece.inside qc (.plain c)) :
    measure_arg lineno qc (c :: rest) argsz = measure_arg lineno qc rest (argsz + 1) := by
  obtain ⟨h1, h2, h3, h4⟩ := h
  have hcq : ¬ (qc ≠ NUL ∧ c = qc) := by
    rintro ⟨ha, hb⟩
    rw [if_neg ha] at h4
    exact h4 hb
  have hsp : ¬ (qc = NUL ∧ c = ' ') := by
    rintro ⟨ha, hb⟩
    rw [if_pos ha] at h4
    exact h4 hb
  rw [measure_arg.eq_def]
  simp only []
  rw [if_neg hcq, if_neg (by simp [h2, h3]), if_neg hsp, if_neg h1]

theorem measure_arg_escaped (lineno : Nat) (qc d : Char) (rest : List Char) (argsz : Nat)
    (hq : qc ≠ '\\') :
    measure_arg lineno qc ('\\' :: d :: rest) argsz = measure_arg lineno qc rest (argsz + 1) := by
  rw [measure_arg]
  rw [if_neg (fun h => hq h.2.symm), if_neg (by decide),
    if_neg (fun h => absurd h.2 (by decide)), if_pos rfl]

theorem copy_arg_plain (qc c : Char) (rest arg : List Char)
    (h : Piece.inside qc (.plain c)) :
    copy_arg qc (c :: rest) arg = copy_arg qc rest (arg ++ [c]) := by
  obtain ⟨h1, h2, h3, h4⟩ := h
  have hcq : ¬ (qc ≠ NUL ∧ c = qc) := by
    rintro ⟨ha, hb⟩
    rw [if_neg ha] at h4
    exact h4 hb
  have hsp : ¬ (qc = NUL ∧ c = ' ') := by
    rintro ⟨ha, hb⟩
    rw [if_pos ha] at h4
    exact h4 hb
  rw [copy_arg.eq_def]
  simp only []
  rw [if_neg hcq, if_neg (by simp [h2, h3]), if_neg hsp, if_neg h1]

theorem copy_arg_escaped (qc d : Char) (rest arg : List Char) (hq : qc ≠ '\\') :
    copy_arg qc ('\\' :: d :: rest) arg = copy_arg qc rest (arg ++ [escape_char d]) := by
  rw [copy_arg]
  rw [if_neg (fun h => hq h.2.symm), if_neg (by decide),
    if_neg (fun h => absurd h.2 (by decide)), if_pos rfl]


theorem escape_char_eq (c : Char) : escape_char c = Piece.byte (.escaped c) := by
  unfold escape_char Piece.byte
  split <;> simp_all

/-- The measuring pass over pieces that stay inside the token. -/
theorem measure_arg_pieces (lineno : Nat) (qc : Char) (hq : qc ≠ '\\') :
    ∀ (ps : List Piece) (tail : List Char) (argsz : Nat), (∀ p ∈ ps, p.inside qc) →
    measure_arg lineno qc (pieces_text ps ++ tail) argsz
      = measure_arg lineno qc tail (argsz + ps.length) := by
  intro ps
  induction ps with
  | nil => intro tail argsz _; simp [pieces_text]
  | cons p ps ih =>
    intro tail argsz hin
    have hp := hin p (List.mem_cons_self _ _)
    have hps : ∀ p1 ∈ ps, p1.inside qc := fun p1 h1 => hin p1 (List.mem_cons_of_mem _ h1)
    have hlen : argsz + (p :: ps).length = argsz + 1 + ps.length := by
      simp only [List.length_cons]; omega
    rw [hlen, ← ih tail (argsz + 1) hps]
    cases p with
    | plain c => exact measure_arg_plain lineno qc c _ argsz hp
    | escaped c => exact measure_arg_escaped lineno qc c _ argsz hq

/-- The copy pass over pieces that stay inside the token. -/
theorem copy_arg_pieces (qc : Char) (hq : qc ≠ '\\') :
    ∀ (ps : List Piece) (tail arg : List Char), (∀ p ∈ ps, p.inside qc) →
    copy_arg qc (pieces_text ps ++ tail) arg = copy_arg qc tail (arg ++ pieces_bytes ps) := by
  intro ps
  induction ps with
  | nil => intro tail arg _; simp [pieces_text, pieces_bytes]
  | cons p ps ih =>
    intro tail arg hin
    have hp := hin p (List.mem_cons_self _ _)
    have hps : ∀ p1 ∈ ps, p1.inside qc := fun p1 h1 => hin p1 (List.mem_cons_of_mem _ h1)
    have hb : arg ++ pieces_bytes (p :: ps) = (arg ++ [p.byte]) ++ pieces_bytes ps := by
      simp [pieces_bytes]
    rw [hb, ← ih tail (arg ++ [p.byte]) hps]
    cases p with
    | plain c => exact copy_arg_plain qc c _ arg hp
    | escaped c =>
      rw [← escape_char_eq]
      exact copy_arg_escaped qc c _ arg hq

/-- The facts used about a quote character. -/
theorem quote_facts {q : Char} (hq : q = '"' ∨ q = '\'') :
    q ≠ NUL ∧ q ≠ '\\' ∧ q ≠ '\n' ∧ q ≠ '\r' ∧ q ≠ ' ' ∧ q ≠ '\t' ∧ q ≠ '#' := by
  rcases hq with rfl | rfl <;> decide

theorem open_quote_quote {q : Char} (hq : q = '"' ∨ q = '\'') (rest : List Char) :
    open_quote (q :: rest) = (q, rest) := by
  simp [open_quote, hq]

theorem open_quote_other {c : Char} (h1 : c ≠ '"') (h2 : c ≠ '\'') (rest : List Char) :
    open_quote (c :: rest) = (NUL, c :: rest) := by
  simp [open_quote, h1, h2]

/-- A quoted token closed by its quote: the decoded pieces, and reading goes
on after the closing quote. -/
theorem parse_arg_quoted (lineno : Nat) {q : Char} (hq : q = '"' ∨ q = '\'')
    (ps : List Piece) (hin : ∀ p ∈ ps, p.inside q) (rest : List Char) :
    parse_arg lineno (q :: (pieces_text ps ++ q :: rest)) = .ok (pieces_bytes ps, rest) := by
  obtain ⟨h0, h1, _⟩ := quote_facts hq
  unfold parse_arg
  rw [open_quote_quote hq]
  simp only []
  rw [measure_arg_pieces lineno q h1 ps _ 0 hin, copy_arg_pieces q h1 ps _ [] hin]
  rw [measure_arg.eq_def, copy_arg.eq_def]
  simp [h0]

/-- A quoted token that meets a line terminator or the end of the input before
its closing quote. -/
theorem parse_arg_unterminated (lineno : Nat) {q : Char} (hq : q = '"' ∨ q = '\'')
    (ps : List Piece) (hin : ∀ p ∈ ps, p.inside q) (tail : List Char)
    (htail : tail = [] ∨ ∃ c rest, tail = c :: rest ∧ (c = '\n' ∨ c = '\r')) :
    parse_arg lineno (q :: (pieces_text ps ++ tail))
      = .fatal (.parse_err "Unterminated string" lineno) := by
  obtain ⟨h0, h1, h2, h3, _⟩ := quote_facts hq
  unfold parse_arg
  rw [open_quote_quote hq]
  simp only []
  rw [measure_arg_pieces lineno q h1 ps _ 0 hin]
  rcases htail with rfl | ⟨c, rest, rfl, hc⟩
  · simp [measure_arg, h0]
  · have hcq : c ≠ q := by
      rcases hc with rfl | rfl
      · exact fun h => h2 h.symm
      · exact fun h => h3 h.symm
    rw [measure_arg.eq_def]
    simp [h0, hcq, hc]

/-- An unquoted token: the decoded pieces, and reading goes on at the byte
that ends the token. -/
theorem parse_arg_unquoted (lineno : Nat) (ps : List Piece) (hin : ∀ p ∈ ps, p.inside NUL)
    (tail : List Char)
    (htail : tail = [] ∨ ∃ c rest, tail = c :: rest ∧ (c = ' ' ∨ c = '\n' ∨ c = '\r'))
    (hopen : (pieces_text ps ++ tail).head? ≠ some '"' ∧
      (pieces_text ps ++ tail).head? ≠ some '\'') :
    parse_arg lineno (pieces_text ps ++ tail) = .ok (pieces_bytes ps, tail) := by
  have hoq : open_quote (pieces_text ps ++ tail) = (NUL, pieces_text ps ++ tail) := by
    generalize pieces_text ps ++ tail = bd at hopen
    cases bd with
    | nil => rfl
    | cons c rest =>
      simp only [List.head?_cons, ne_eq, Option.some.injEq] at hopen
      exact open_quote_other hopen.1 hopen.2 rest
  have hN : NUL ≠ '\\' := by decide
  unfold parse_arg
  rw [hoq]
  simp only []
  rw [measure_arg_pieces lineno NUL hN ps _ 0 hin, copy_arg_pieces NUL hN ps _ [] hin]
  rcases htail with rfl | ⟨c, rest, rfl, hc⟩
  · simp [measure_arg, copy_arg]
  · rw [measure_arg.eq_def, copy_arg.eq_def]
    rcases hc with rfl | rfl | rfl <;> simp

/-- A byte that starts a token: the token loop reads one token there. -/
theorem parse_args_token (lineno fuel : Nat) (c : Char) (rest : List Char)
    (argv : List (List Char))
    (hc : c ≠ '\n' ∧ c ≠ '\r' ∧ c ≠ ' ' ∧ c ≠ '\t') :
    parse_args lineno (fuel + 1) (c :: rest) argv =
      match parse_arg lineno (c :: rest) with
      | .fatal f => .fatal f
      | .unfinished => .unfinished
      | .ok (arg, bd2) => parse_args lineno fuel bd2 (argv ++ [arg]) := by
  obtain ⟨h1, h2, h3, h4⟩ := hc
  rw [parse_args]
  simp only [skip_space, h1, h2, h3, h4, or_self, if_false, lt_self_iff_false]

/-- A body of plain bytes, as pieces. -/
theorem pieces_of_plain (b : List Char) :
    pieces_text (b.map Piece.plain) = b ∧ pieces_bytes (b.map Piece.plain) = b := by
  induction b with
  | nil => exact ⟨rfl, rfl⟩
  | cons c b ih => simp [pieces_text, pieces_bytes, Piece.text, Piece.byte, ih.1, ih.2]

/-- Blanks before the first byte of a line are skipped. -/
theorem skip_blank_blanks (ws : List Char) (hws : ∀ c ∈ ws, c = ' ' ∨ c = '\t')
    (c : Char) (rest : List Char) (hc : c ≠ ' ' ∧ c ≠ '\t') :
    skip_blank (ws ++ c :: rest) = c :: rest := by
  induction ws with
  | nil => simp [skip_blank, hc.1, hc.2]
  | cons w ws ih =>
    have hw := hws w (List.mem_cons_self _ _)
    simp only [List.cons_append, skip_blank, hw, if_true]
    exact ih (fun c1 h1 => hws c1 (List.mem_cons_of_mem _ h1))

/-- C4: for a quote character `q` (single or double) and a body `b` that
holds no `q`, no backslash, no line feed and no carriage return, the token
written `q b q` is read as exactly `b` (spaces and the other quote kept, the
enclosing quotes removed), reading goes on right after the closing quote, and
the token loop appends `b` to `argv` as a single element; the line
`"arg with space" secondarg` yields one command with argv
`["arg with space", "secondarg"]`. -/
theorem quoted_token_is_body (lineno fuel : Nat) (q : Char) (b rest : List Char)
    (argv : List (List Char)) (hq : q = '"' ∨ q = '\'')
    (hb : ∀ c ∈ b, c ≠ q ∧ c ≠ '\\' ∧ c ≠ '\n' ∧ c ≠ '\r') :
    parse_arg lineno (q :: (b ++ q :: rest)) = .ok (b, rest) ∧
    parse_args lineno (fuel + 1) (q :: (b ++ q :: rest)) argv
      = parse_args lineno fuel rest (argv ++ [b]) ∧
    batch_argvs "\"arg with space\" secondarg".toList
      = .ok [["arg with space".toList, "secondarg".toList]] := by
  obtain ⟨h0, h1, h2, h3, h4, h5, _⟩ := quote_facts hq
  have hin : ∀ p ∈ b.map Piece.plain, p.inside q := by
    intro p hp
    obtain ⟨c, hc, rfl⟩ := List.mem_map.1 hp
    obtain ⟨k1, k2, k3, k4⟩ := hb c hc
    exact ⟨k2, k3, k4, by rw [if_neg h0]; exact k1⟩
  have key : parse_arg lineno (q :: (b ++ q :: rest)) = .ok (b, rest) := by
    have := parse_arg_quoted lineno hq (b.map Piece.plain) hin rest
    rwa [(pieces_of_plain b).1, (pieces_of_plain b).2] at this
  refine ⟨key, ?_, by decide⟩
  rw [parse_args_token lineno fuel q _ argv ⟨h2, h3, h4, h5⟩, key]

/-- Witness of C4: the token `"arg with space"` followed by ` secondarg`. -/
theorem quoted_token_is_body_witness :
    (∀ c ∈ "arg with space".toList, c ≠ '"' ∧ c ≠ '\\' ∧ c ≠ '\n' ∧ c ≠ '\r') ∧
    parse_arg 0 ('"' :: ("arg with space".toList ++ '"' :: " secondarg".toList))
      = .ok ("arg with space".toList, " secondarg".toList) :=
  ⟨by decide,
   (quoted_token_is_body 0 0 '"' "arg with space".toList " secondarg".toList []
      (Or.inl rfl) (by decide)).1⟩

/-- C5: `escape_char` maps `0` to NUL, `n` to line feed, `r` and `t` to
carriage return and every other byte to itself; in a token, quoted or unquoted,
every backslash followed by a byte `c` is decoded to that one byte and the
token goes on after it, whatever `c` is (a space, a quote, a backslash, a line
terminator): a token whose text is a sequence of pieces is read as the bytes
of the pieces, one byte a piece.  The token text `a\nb` yields the three bytes
`a`, line feed, `b`. -/
theorem escape_decodes_one_byte (lineno : Nat) (ps : List Piece) :
    (∀ c, escape_char c =
      if c = '0' then NUL else if c = 'n' then '\n' else if c = 'r' then '\r'
      else if c = 't' then '\r' else c) ∧
    (∀ q rest, (q = '"' ∨ q = '\'') → (∀ p ∈ ps, p.inside q) →
      parse_arg lineno (q :: (pieces_text ps ++ q :: rest)) = .ok (pieces_bytes ps, rest)) ∧
    (∀ tail, (∀ p ∈ ps, p.inside NUL) →
      (tail = [] ∨ ∃ c rest, tail = c :: rest ∧ (c = ' ' ∨ c = '\n' ∨ c = '\r')) →
      ((pieces_text ps ++ tail).head? ≠ some '"' ∧
        (pieces_text ps ++ tail).head? ≠ some '\'') →
      parse_arg lineno (pieces_text ps ++ tail) = .ok (pieces_bytes ps, tail)) ∧
    (ps.length = (pieces_bytes ps).length) ∧
    batch_argvs ['a', '\\', 'n', 'b'] = .ok [[['a', '\n', 'b']]] := by
  refine ⟨fun c => ?_, fun q rest hq hin => parse_arg_quoted lineno hq ps hin rest,
    fun tail hin htail hopen => parse_arg_unquoted lineno ps hin tail htail hopen, ?_, by decide⟩
  · rw [escape_char_eq]; rfl
  · induction ps with
    | nil => rfl
    | cons p ps ih => simp [pieces_bytes, ih]

/-- Witness of C5: a quoted token with an escaped quote, backslash and `t`, and
an unquoted token with an escaped space, `n` and line feed. -/
theorem escape_decodes_one_byte_witness :
    parse_arg 7 ('"' :: (pieces_text [.plain 'a', .escaped '"', .escaped '\\', .escaped 't'] ++
      '"' :: [' ', 'x'])) = .ok (['a', '"', '\\', '\r'], [' ', 'x']) ∧
    parse_arg 7 (pieces_text [.escaped ' ', .escaped 'n', .plain 'b', .escaped '\n'] ++ ['\n'])
      = .ok ([' ', '\n', 'b', '\n'], ['\n']) :=
  ⟨(escape_decodes_one_byte 7 [.plain 'a', .escaped '"', .escaped '\\', .escaped 't']).2.1
      '"' [' ', 'x'] (Or.inl rfl) (by decide),
   (escape_decodes_one_byte 7 [.escaped ' ', .escaped 'n', .plain 'b', .escaped '\n']).2.2.1
      ['\n'] (by decide) (Or.inr ⟨'\n', [], rfl, Or.inr (Or.inl rfl)⟩) (by decide)⟩

/-! ## Batch parser: flags, comments, empty commands -/

/-- A token that does not start with `-` is none of the flags. -/
theorem streq_no_dash {t : List Char} (ht : t.head? ≠ some '-') (x : Char) :
    streq t ['-', x] = false := by
  cases t with
  | nil => simp [streq, cstr]
  | cons c rest =>
    have hc : c ≠ '-' := by simpa using ht
    by_cases hn : c = NUL
    · simp [streq, cstr, hn]
    · simp [streq, cstr, hn, hc]

/-- The flag loop over a sequence of flags written at the front of the line. -/
theorem strip_flags_flags (t : List Char) (ts : List (List Char)) (ht : t.head? ≠ some '-') :
    ∀ (flags : List Flag) (cmd : Cmd),
    strip_flags (flag_tokens flags ++ t :: ts) cmd = .ok (set_flags flags cmd, t :: ts) := by
  intro flags
  induction flags with
  | nil =>
    intro cmd
    have hd : ¬ (strlen t > 0 ∧ t.headD NUL = '-') := by
      rintro ⟨_, h2⟩
      cases t with
      | nil => exact absurd h2 (by decide)
      | cons c rest => exact ht (by simpa using h2)
    simp only [flag_tokens, List.nil_append, set_flags]
    rw [strip_flags.eq_def]
    simp only [streq_no_dash ht, Bool.false_eq_true, if_false, if_neg hd]
  | cons f flags ih =>
    intro cmd
    cases f with
    | I v =>
      simp only [flag_tokens, Flag.tokens, List.cons_append, List.nil_append, set_flags, Flag.set]
      rw [strip_flags, if_pos (by decide)]
      exact ih _
    | i v =>
      simp only [flag_tokens, Flag.tokens, List.cons_append, List.nil_append, set_flags, Flag.set]
      rw [strip_flags, if_neg (by decide), if_pos (by decide)]
      exact ih _
    | o v =>
      simp only [flag_tokens, Flag.tokens, List.cons_append, List.nil_append, set_flags, Flag.set]
      rw [strip_flags, if_neg (by decide), if_neg (by decide), if_pos (by decide)]
      exact ih _
    | q =>
      simp only [flag_tokens, Flag.tokens, List.cons_append, List.nil_append, set_flags, Flag.set]
      rw [strip_flags.eq_def]
      simp only []
      rw [if_neg (by decide), if_neg (by decide), if_neg (by decide), if_pos (by decide)]
      exact ih _

/-- C3: for a tokenized line made of flags `-I v`, `-i v`, `-o v`, `-q` (in
any number and order) followed by a token `t` that does not start with `-` and
any tokens `ts`, the flag loop sets the placeholder, the input command, the
output command and quiet as the flags say, in order, stops at `t`, and the
command gets the argv `t :: ts` unchanged, whatever `ts` looks like; the line
`-I % -q mycommand %` yields placeholder `%`, quiet, no input or output
command and argv `["mycommand", "%"]`. -/
theorem flag_stripping (num_runs : Nat) (flags : List Flag) (t : List Char)
    (ts : List (List Char)) (ht : t.head? ≠ some '-') :
    strip_flags (flag_tokens flags ++ t :: ts) (new_cmd num_runs)
      = .ok (set_flags flags (new_cmd num_runs), t :: ts) ∧
    make_cmd num_runs (flag_tokens flags ++ t :: ts)
      = .ok { set_flags flags (new_cmd num_runs) with argv := t :: ts } ∧
    parse_batch (conf0 1) "-I % -q mycommand %".toList
      = .ok { conf0 1 with cmds := [{ new_cmd 1 with
          replace_str := some ['%'], quiet := true, input_cmd := none, output_cmd := none,
          argv := ["mycommand".toList, ['%']] }] } := by
  have h := strip_flags_flags t ts ht flags (new_cmd num_runs)
  refine ⟨h, ?_, by decide⟩
  unfold make_cmd
  rw [h]

/-- Witness of C3: the flags `-I %` and `-q` before `mycommand % -q`. -/
theorem flag_stripping_witness :
    ("mycommand".toList).head? ≠ some '-' ∧
    make_cmd 1 (flag_tokens [.I ['%'], .q] ++ "mycommand".toList :: [['%'], ['-', 'q']])
      = .ok { set_flags [.I ['%'], .q] (new_cmd 1) with
          argv := "mycommand".toList :: [['%'], ['-', 'q']] } :=
  ⟨by decide, (flag_stripping 1 [.I ['%'], .q] "mycommand".toList [['%'], ['-', 'q']]
    (by decide)).2.1⟩

/-- C2: the code at the failing input.  The loop that skips a comment never
stops before the end of the input, so the batch text `# c`, line feed, `ls`,
line feed yields no command, while `ls`, line feed alone yields the command
`ls`: whatever follows a `#` at the start of a line is dropped, and the line
loop ends there with the commands read before. -/
theorem comment_swallows_rest :
    batch_argvs "# c\nls\n".toList = .ok [] ∧
    batch_argvs "ls\n".toList = .ok [[['l', 's']]] ∧
    (∀ rest, skip_comment rest = []) ∧
    (∀ num_runs fuel lineno rest cmds,
      parse_lines num_runs (fuel + 1) lineno ('#' :: rest) cmds = .ok cmds) := by
  have hsk : ∀ rest, skip_comment rest = [] := by
    intro rest
    induction rest with
    | nil => rfl
    | cons c rest ih =>
      have h : c ≠ '\n' ∨ c ≠ '\r' := by
        by_cases hc : c = '\n'
        · right; rw [hc]; decide
        · left; exact hc
      simp [skip_comment, h, ih]
  refine ⟨by decide, by decide, hsk, ?_⟩
  intro num_runs fuel lineno rest cmds
  rw [parse_lines]
  simp [skip_blank, hsk]

/-- C9: the code at the failing inputs.  For the lines `-q` and `-I %`, whose
tokens are all consumed by the flag loop, `parse_batch` returns a command with
an empty argv and no error. -/
theorem empty_argv_accepted :
    parse_batch (conf0 1) "-q\n".toList
      = .ok { conf0 1 with cmds := [{ new_cmd 1 with quiet := true, argv := [] }] } ∧
    parse_batch (conf0 1) "-I %".toList
      = .ok { conf0 1 with cmds := [{ new_cmd 1 with replace_str := some ['%'], argv := [] }] } := by
  exact ⟨by decide, by decide⟩

/-! ## Placeholder substitution -/

theorem starts_with_length : ∀ (f p : List Char), starts_with f p = true → p.length ≤ f.length
  | _, [], _ => by simp
  | [], _ :: _, h => by simp [starts_with] at h
  | a :: f, b :: p, h => by
    simp only [starts_with, Bool.and_eq_true, decide_eq_true_eq] at h
    have := starts_with_length f p h.2
    simp only [List.length_cons]
    omega

theorem subst_from_skip (p d : List Char) : ∀ (s : List Char) (k : Nat),
    subst_from p d k s = subst_from p d 0 (s.drop k) := by
  intro s
  induction s with
  | nil => intro k; cases k <;> simp [subst_from]
  | cons c s ih =>
    intro k
    cases k with
    | zero => simp
    | succ k => simp only [subst_from, List.drop_succ_cons]; exact ih k

theorem count_from_skip (p : List Char) : ∀ (s : List Char) (k : Nat),
    count_from p k s = count_from p 0 (s.drop k) := by
  intro s
  induction s with
  | nil => intro k; cases k <;> simp [count_from]
  | cons c s ih =>
    intro k
    cases k with
    | zero => simp
    | succ k => simp only [count_from, List.drop_succ_cons]; exact ih k

/-- No occurrence: the scan keeps every byte. -/
theorem strstr_none (p d : List Char) : ∀ (f : List Char), strstr f p = none →
    subst_from p d 0 f = f ∧ count_from p 0 f = 0 := by
  intro f
  induction f with
  | nil => intro _; simp [subst_from, count_from]
  | cons c f ih =>
    intro h
    unfold strstr at h
    split at h
    · simp at h
    · rename_i hsw
      simp only [Option.map_eq_none'] at h
      obtain ⟨h1, h2⟩ := ih h
      simp [subst_from, count_from, hsw, h1, h2]

/-- First occurrence at offset `n`: the scan keeps the `n` bytes before it,
writes `d`, and goes on after the occurrence. -/
theorem strstr_some (p d : List Char) (hp : p ≠ []) : ∀ (f : List Char) (n : Nat),
    strstr f p = some n →
    n + p.length ≤ f.length ∧
    subst_from p d 0 f = f.take n ++ d ++ subst_from p d 0 (f.drop (n + p.length)) ∧
    count_from p 0 f = 1 + count_from p 0 (f.drop (n + p.length)) := by
  intro f
  induction f with
  | nil =>
    intro n h
    simp [strstr, hp] at h
  | cons c f ih =>
    intro n h
    have hpl : 1 ≤ p.length := by
      cases p with
      | nil => exact absurd rfl hp
      | cons _ _ => simp
    unfold strstr at h
    split at h
    · rename_i hsw
      simp only [Option.some.injEq] at h
      subst h
      have hl := starts_with_length _ _ hsw
      have hd : (c :: f).drop (0 + p.length) = f.drop (p.length - 1) := by
        obtain ⟨k, hk⟩ : ∃ k, p.length = k + 1 := ⟨p.length - 1, by omega⟩
        simp [hk]
      refine ⟨by omega, ?_, ?_⟩
      · simp only [subst_from, hsw, if_true, List.take_zero, List.nil_append, hd]
        rw [subst_from_skip]
      · simp only [count_from, hsw, if_true, hd]
        rw [count_from_skip]
    · rename_i hsw
      simp only [Option.map_eq_some'] at h
      obtain ⟨m, hm, rfl⟩ := h
      obtain ⟨h1, h2, h3⟩ := ih m hm
      have hd : (c :: f).drop (m + 1 + p.length) = f.drop (m + p.length) := by
        rw [show m + 1 + p.length = (m + p.length) + 1 by omega, List.drop_succ_cons]
      refine ⟨by simp only [List.length_cons]; omega, ?_, ?_⟩
      · simp only [subst_from, hsw, Bool.false_eq_true, if_false, hd, List.take_succ_cons,
          List.cons_append]
        rw [h2]
      · simp only [count_from, hsw, Bool.false_eq_true, if_false, hd]
        exact h3

/-- The copying loop of `replace` computes the reference substitution. -/
theorem build_loop_ref (p d : List Char) (hp : p ≠ []) : ∀ (fuel : Nat) (f rtn : List Char),
    f.length < fuel → build_loop p d fuel f rtn = .ok (rtn ++ subst_ref p d f) := by
  intro fuel
  induction fuel with
  | zero => intro f rtn h; omega
  | succ fuel ih =>
    intro f rtn hlen
    unfold build_loop
    split
    · rename_i hs
      rw [subst_ref, (strstr_none p d f hs).1]
    · rename_i n hs
      obtain ⟨h1, h2, _⟩ := strstr_some p d hp f n hs
      have hpl : 1 ≤ p.length := by
        cases p with
        | nil => exact absurd rfl hp
        | cons _ _ => simp
      rw [ih _ _ (by rw [List.length_drop]; omega), subst_ref, subst_ref, h2]
      simp

/-- The counting loop of `replace` counts the occurrences of the reference scan. -/
theorem count_loop_ref (p : List Char) (hp : p ≠ []) : ∀ (fuel : Nat) (f : List Char) (k : Nat),
    f.length < fuel → count_loop p fuel f k = .ok (k + count_ref p f) := by
  intro fuel
  induction fuel with
  | zero => intro f k h; omega
  | succ fuel ih =>
    intro f k hlen
    unfold count_loop
    split
    · rename_i hs
      rw [count_ref, (strstr_none p [] f hs).2]
      rfl
    · rename_i n hs
      obtain ⟨h1, _, h3⟩ := strstr_some p [] hp f n hs
      have hpl : 1 ≤ p.length := by
        cases p with
        | nil => exact absurd rfl hp
        | cons _ _ => simp
      rw [ih _ _ (by rw [List.length_drop]; omega), count_ref, count_ref, h3]
      congr 1
      omega

/-- No occurrence counted: the reference substitution keeps the template. -/
theorem subst_from_of_count_zero (p d : List Char) : ∀ (s : List Char) (k : Nat),
    count_from p k s = 0 → subst_from p d k s = s.drop k := by
  intro s
  induction s with
  | nil => intro k _; cases k <;> simp [subst_from]
  | cons c s ih =>
    intro k h
    cases k with
    | succ k =>
      simp only [count_from] at h
      simp only [subst_from, List.drop_succ_cons]
      exact ih k h
    | zero =>
      by_cases hsw : starts_with (c :: s) p = true
      · simp only [count_from, hsw, if_true] at h
        omega
      · simp only [count_from, hsw, Bool.false_eq_true, if_false] at h
        simp only [subst_from, hsw, Bool.false_eq_true, if_false, List.drop_zero]
        rw [ih 0 h, List.drop_zero]

/-- The length of the reference substitution. -/
theorem subst_from_length (p d : List Char) (hp : p ≠ []) : ∀ (s : List Char) (k : Nat),
    k ≤ s.length →
    (subst_from p d k s).length + count_from p k s * p.length + k
      = s.length + count_from p k s * d.length := by
  intro s
  induction s with
  | nil => intro k hk; simp at hk; subst hk; simp [subst_from, count_from]
  | cons c s ih =>
    intro k hk
    have hpl : 1 ≤ p.length := by
      cases p with
      | nil => exact absurd rfl hp
      | cons _ _ => simp
    cases k with
    | succ k =>
      simp only [List.length_cons] at hk
      have := ih k (by omega)
      simp only [subst_from, count_from, List.length_cons]
      omega
    | zero =>
      by_cases hsw : starts_with (c :: s) p = true
      · have hl := starts_with_length _ _ hsw
        simp only [List.length_cons] at hl
        have := ih (p.length - 1) (by omega)
        simp only [subst_from, count_from, hsw, if_true, List.length_append, List.length_cons]
        rw [Nat.add_mul, Nat.add_mul]
        omega
      · have := ih 0 (by omega)
        simp only [subst_from, count_from, hsw, Bool.false_eq_true, if_false, List.length_cons]
        omega


/-- With a non-empty placeholder, both loops of `replace` end within the
budget and the string returned is the reference substitution. -/
theorem replace_subst (conf : Conf) (cmd : Cmd) (s p : List Char) (runi : Nat)
    (h : cmd.replace_str = some p) (hp : cstr p ≠ []) :
    replace conf cmd (some s) runi
      = .ok (some (subst_ref (cstr p) (Nat.repr (runi + 1)).toList (cstr s))) := by
  simp only [replace, replace_fuel, h]
  rw [count_loop_ref (cstr p) hp _ _ _ (by simp [strlen]),
    build_loop_ref (cstr p) _ hp _ _ _ (by simp [strlen])]
  rfl

/-- C6: `replace` equals the reference substitution.  With no placeholder
configured it returns the template string unchanged; with a non-empty
placeholder `p` it returns the template with every non-overlapping occurrence
of `p`, found scanning left to right, replaced by the decimal representation
of `runi + 1`, every other byte kept in order, the inserted digits not scanned
again.  (`cstr` reads a buffer as the C string it holds.) -/
theorem replace_is_reference (conf : Conf) (cmd : Cmd) (s : List Char) (runi : Nat) :
    (cmd.replace_str = none → replace conf cmd (some s) runi = .ok (some (cstr s))) ∧
    (∀ p, cmd.replace_str = some p → cstr p ≠ [] →
      replace conf cmd (some s) runi
        = .ok (some (subst_ref (cstr p) (Nat.repr (runi + 1)).toList (cstr s)))) := by
  constructor
  · intro h
    simp [replace, replace_fuel, h]
  · intro p h hp
    exact replace_subst conf cmd s p runi h hp

/-- Witness of C6: `a%b%%` with placeholder `%` and run index 11 gives
`a12b1212`. -/
theorem replace_is_reference_witness :
    ({ new_cmd 1 with replace_str := some ['%'] } : Cmd).replace_str = some ['%'] ∧
    cstr ['%'] ≠ [] ∧
    replace (conf0 1) { new_cmd 1 with replace_str := some ['%'] } (some "a%b%%".toList) 11
      = .ok (some (subst_ref (cstr ['%']) (Nat.repr (11 + 1)).toList (cstr "a%b%%".toList))) ∧
    subst_ref (cstr ['%']) (Nat.repr (11 + 1)).toList (cstr "a%b%%".toList)
      = "a12b1212".toList :=
  ⟨rfl, by decide,
   (replace_is_reference (conf0 1) { new_cmd 1 with replace_str := some ['%'] }
      "a%b%%".toList 11).2 ['%'] rfl (by decide),
   by decide⟩

/-- C7: for a template `s`, a non-empty placeholder `p` and a run index
`runi`, the counting loop of `replace` finds the `k` non-overlapping occurrences
of `p` counted scanning left to right, and the string `replace` returns has
length `|s| + k * (len(decimal(runi + 1)) - |p|)` as an integer, also when the
difference is negative and when `k = 0`, where the string returned is the
template. -/
theorem replace_length (conf : Conf) (cmd : Cmd) (s p : List Char) (runi : Nat)
    (hp : cmd.replace_str = some p) (hne : cstr p ≠ []) :
    count_loop (cstr p) (strlen s + 1) (cstr s) 0 = .ok (count_ref (cstr p) (cstr s)) ∧
    ∃ rtn, replace conf cmd (some s) runi = .ok (some rtn) ∧
      (rtn.length : Int) = (strlen s : Int) +
        (count_ref (cstr p) (cstr s) : Int) *
          (((Nat.repr (runi + 1)).length : Int) - (strlen p : Int)) ∧
      (count_ref (cstr p) (cstr s) = 0 → rtn = cstr s) := by
  refine ⟨by simpa using count_loop_ref (cstr p) hne (strlen s + 1) (cstr s) 0 (by simp [strlen]),
    _, replace_subst conf cmd s p runi hp hne, ?_,
    fun h0 => by simpa using subst_from_of_count_zero (cstr p) _ (cstr s) 0 h0⟩
  have h := subst_from_length (cstr p) (Nat.repr (runi + 1)).toList hne (cstr s) 0 (Nat.zero_le _)
  simp only [subst_ref, count_ref, strlen]
  have hl : (Nat.repr (runi + 1)).length = (Nat.repr (runi + 1)).toList.length := rfl
  rw [hl]
  zify at h
  linarith

/-- Witness of C7: `xRUNyRUN` with placeholder `RUN` and run index 6 (two
occurrences, the decimal shorter than the placeholder). -/
theorem replace_length_witness :
    ({ new_cmd 1 with replace_str := some "RUN".toList } : Cmd).replace_str
      = some "RUN".toList ∧
    cstr "RUN".toList ≠ [] ∧
    count_loop (cstr "RUN".toList) (strlen "xRUNyRUN".toList + 1) (cstr "xRUNyRUN".toList) 0
      = .ok 2 ∧
    ∃ rtn, replace (conf0 1) { new_cmd 1 with replace_str := some "RUN".toList }
        (some "xRUNyRUN".toList) 6 = .ok (some rtn) ∧
      (rtn.length : Int) = (strlen "xRUNyRUN".toList : Int) +
        (count_ref (cstr "RUN".toList) (cstr "xRUNyRUN".toList) : Int) *
          (((Nat.repr (6 + 1)).length : Int) - (strlen "RUN".toList : Int)) ∧
      (count_ref (cstr "RUN".toList) (cstr "xRUNyRUN".toList) = 0 →
        rtn = cstr "xRUNyRUN".toList) :=
  have h := replace_length (conf0 1) { new_cmd 1 with replace_str := some "RUN".toList }
    "xRUNyRUN".toList "RUN".toList 6 rfl (by decide)
  ⟨rfl, by decide, by decide, h.2⟩

/-! ## Executor: the timed window -/

theorem replace_some {conf : Conf} {cmd : Cmd} {s : List Char} {runi : Nat}
    {r : Option (List Char)} (h : replace conf cmd (some s) runi = .ok r) : r.isSome = true := by
  simp only [replace, replace_fuel] at h
  split at h
  · simp only [Res.ok.injEq] at h; subst h; rfl
  · split at h
    · simp at h
    · simp at h
    · split at h
      · simp at h
      · simp at h
      · simp only [Res.ok.injEq] at h; subst h; rfl

theorem prepare_input_ok {env : Env} {conf : Conf} {cmd : Cmd} {runi : Nat} {t1 : List Effect}
    (h : prepare_input env conf cmd runi = (t1, .ok ())) :
    (∀ e ∈ t1, e.output_sink = false ∧ e.timed = false) ∧
    (cmd.input_cmd ≠ none →
      (∃ ic, Effect.popen_input ic ∈ t1) ∧ Effect.fcopy_input ∈ t1 ∧ Effect.pclose_input ∈ t1) := by
  unfold prepare_input at h
  split at h
  · rename_i hsome
    unfold read_input at h
    split at h
    · simp at h
    · split at h
      · simp at h
      · simp at h
      · simp at h
      · rename_i input_cmd _
        split at h
        · simp at h
        · split at h
          · simp at h
          · simp only [Prod.mk.injEq, and_true] at h
            subst h
            refine ⟨?_, fun _ => ⟨⟨input_cmd, by simp⟩, by simp, by simp⟩⟩
            intro e he
            simp only [List.mem_cons, List.mem_singleton, List.not_mem_nil, or_false] at he
            rcases he with rfl | rfl | rfl | rfl | rfl <;> exact ⟨rfl, rfl⟩
  · rename_i hnone
    simp only [Prod.mk.injEq, and_true] at h
    subst h
    refine ⟨by simp, fun hne => ?_⟩
    cases hi : cmd.input_cmd with
    | none => exact absurd hi hne
    | some x => simp [hi] at hnone

theorem sink_output_ok {env : Env} {output_cmd : Option (List Char)} {t5 : List Effect}
    (h : sink_output env output_cmd = (t5, .ok ())) :
    (∀ e ∈ t5, e.input_helper = false ∧ e ≠ .tmpfile_output ∧ e.timed = false) ∧
    (output_cmd ≠ none →
      (∃ oc, Effect.popen_output oc ∈ t5) ∧ Effect.fcopy_output ∈ t5 ∧
        Effect.pclose_output ∈ t5) := by
  unfold sink_output at h
  split at h
  · simp only [Prod.mk.injEq, and_true] at h
    subst h
    exact ⟨by simp, fun hne => absurd rfl hne⟩
  · rename_i oc
    split at h
    · simp at h
    · split at h
      · simp at h
      · split at h
        · simp at h
        · simp only [Prod.mk.injEq, and_true] at h
          subst h
          refine ⟨?_, fun _ => ⟨⟨oc, by simp⟩, by simp, by simp⟩⟩
          intro e he
          simp only [List.mem_cons, List.mem_singleton, List.not_mem_nil, or_false] at he
          rcases he with rfl | rfl | rfl | rfl | rfl <;> exact ⟨rfl, by simp, rfl⟩

/-- A run of `execute_cmd` that returns: the three steps succeeded, and the
effects are theirs around the timed window. -/
theorem execute_cmd_trace {env : Env} {conf : Conf} {cmd cmd1 : Cmd} {runi : Nat}
    (h : (execute_cmd env conf cmd runi).2 = .ok cmd1) :
    ∃ t1 output_cmd t5,
      prepare_input env conf cmd runi = (t1, .ok ()) ∧
      replace conf cmd cmd.output_cmd runi = .ok output_cmd ∧
      sink_output env output_cmd = (t5, .ok ()) ∧
      (execute_cmd env conf cmd runi).1
        = ((if conf.verbosity > 0 then [Effect.echo] else []) ++ t1 ++
            (if output_cmd.isSome then [Effect.tmpfile_output] else [])) ++
          [.gettimeofday_start, .fork, .wait4 env.pid, .gettimeofday_end] ++
          ((if cmd.input_cmd.isSome then [Effect.fclose_input] else []) ++ t5) := by
  rcases hpi : prepare_input env conf cmd runi with ⟨t1, r1⟩
  cases r1 with
  | fatal f => simp [execute_cmd, hpi] at h
  | unfinished => simp [execute_cmd, hpi] at h
  | ok u =>
    cases hrep : replace conf cmd cmd.output_cmd runi with
    | fatal f => simp [execute_cmd, hpi, hrep] at h
    | unfinished => simp [execute_cmd, hpi, hrep] at h
    | ok output_cmd =>
      by_cases htmp : output_cmd.isSome ∧ ¬ env.tmpfile_output_ok
      · simp [execute_cmd, hpi, hrep, htmp] at h
      · rcases hso : sink_output env output_cmd with ⟨t5, r5⟩
        cases r5 with
        | fatal f =>
          simp only [execute_cmd, hpi, hrep, hso, if_neg htmp] at h
          exact absurd h (by simp)
        | unfinished =>
          simp only [execute_cmd, hpi, hrep, hso, if_neg htmp] at h
          exact absurd h (by simp)
        | ok u5 =>
          refine ⟨t1, output_cmd, t5, rfl, rfl, hso, ?_⟩
          simp only [execute_cmd, hpi, hrep, hso, if_neg htmp]
          simp

/-- C8: in every execution of `execute_cmd` that returns, the trace of
effects is `before`, then the start timestamp, the creation of the timed child,
the wait for the pid `fork` returned and the end timestamp, then `after`;
`before` holds no effect of the output sink, `after` holds no effect of the
input helper and not the creation of the capture buffer, neither holds a
timestamp, a fork or a wait; the input helper (spawn, copy, wait) is in
`before` when an input command is set, the capture buffer is in `before` and
the output sink (spawn, stream, wait) in `after` when an output command is set. -/
theorem execute_cmd_window (env : Env) (conf : Conf) (cmd cmd1 : Cmd) (runi : Nat)
    (h : (execute_cmd env conf cmd runi).2 = .ok cmd1) :
    ∃ before after,
      (execute_cmd env conf cmd runi).1
        = before ++ [.gettimeofday_start, .fork, .wait4 env.pid, .gettimeofday_end] ++ after ∧
      (∀ e ∈ before, e.output_sink = false ∧ e.timed = false) ∧
      (∀ e ∈ after, e.input_helper = false ∧ e ≠ .tmpfile_output ∧ e.timed = false) ∧
      (cmd.input_cmd ≠ none →
        (∃ ic, Effect.popen_input ic ∈ before) ∧ Effect.fcopy_input ∈ before ∧
          Effect.pclose_input ∈ before) ∧
      (cmd.output_cmd ≠ none →
        Effect.tmpfile_output ∈ before ∧ (∃ oc, Effect.popen_output oc ∈ after) ∧
          Effect.fcopy_output ∈ after ∧ Effect.pclose_output ∈ after) := by
  obtain ⟨t1, output_cmd, t5, hin, hrep, hout, htrace⟩ := execute_cmd_trace h
  obtain ⟨hin1, hin2⟩ := prepare_input_ok hin
  obtain ⟨hout1, hout2⟩ := sink_output_ok hout
  refine ⟨_, _, htrace, ?_, ?_, ?_, ?_⟩
  · intro e he
    simp only [List.mem_append] at he
    rcases he with (he | he) | he
    · split at he
      · simp only [List.mem_singleton] at he; subst he; exact ⟨rfl, rfl⟩
      · simp at he
    · exact hin1 e he
    · split at he
      · simp only [List.mem_singleton] at he; subst he; exact ⟨rfl, rfl⟩
      · simp at he
  · intro e he
    simp only [List.mem_append] at he
    rcases he with he | he
    · split at he
      · simp only [List.mem_singleton] at he; subst he; exact ⟨rfl, by simp, rfl⟩
      · simp at he
    · exact hout1 e he
  · intro hne
    obtain ⟨⟨ic, h1⟩, h2, h3⟩ := hin2 hne
    exact ⟨⟨ic, by simp [h1]⟩, by simp [h2], by simp [h3]⟩
  · intro hne
    have hsome : output_cmd.isSome = true := by
      cases ho : cmd.output_cmd with
      | none => exact absurd ho hne
      | some s =>
        rw [ho] at hrep
        exact replace_some hrep
    have hne2 : output_cmd ≠ none := by
      intro hn; rw [hn] at hsome; simp at hsome
    obtain ⟨⟨oc, h1⟩, h2, h3⟩ := hout2 hne2
    exact ⟨by simp [hsome], ⟨oc, by simp [h1]⟩, by simp [h2], by simp [h3]⟩

/-- Witness of C8: a command with both helpers, every call succeeding. -/
theorem execute_cmd_window_witness :
    (execute_cmd env_ok (conf0 1) cmd_helpers 0).2 = .ok (fill_slot env_ok cmd_helpers 0) ∧
    ∃ before after,
      (execute_cmd env_ok (conf0 1) cmd_helpers 0).1
        = before ++ [.gettimeofday_start, .fork, .wait4 env_ok.pid, .gettimeofday_end]
            ++ after ∧
      (∀ e ∈ before, e.output_sink = false ∧ e.timed = false) ∧
      (∀ e ∈ after, e.input_helper = false ∧ e ≠ .tmpfile_output ∧ e.timed = false) ∧
      (cmd_helpers.input_cmd ≠ none →
        (∃ ic, Effect.popen_input ic ∈ before) ∧ Effect.fcopy_input ∈ before ∧
          Effect.pclose_input ∈ before) ∧
      (cmd_helpers.output_cmd ≠ none →
        Effect.tmpfile_output ∈ before ∧ (∃ oc, Effect.popen_output oc ∈ after) ∧
          Effect.fcopy_output ∈ after ∧ Effect.pclose_output ∈ after) :=
  ⟨by decide, execute_cmd_window env_ok (conf0 1) cmd_helpers
    (fill_slot env_ok cmd_helpers 0) 0 (by decide)⟩

/-! ## Batch parser: line numbers of the diagnostics -/

/-- C11: the code at the failing inputs.  `lineno` starts at 0 and counts the
line feeds the line loop has passed, so the one-line file `"abc` reports
"Unterminated string at line 0" and the file `ls`, line feed, `"abc`, line feed
reports line 1, where the claim says 1 and 2; a dangling backslash on the first
line reports line 0 as well, and a line feed escaped inside a token is not
counted at all. -/
theorem lineno_counts_from_zero :
    parse_batch (conf0 1) ['"', 'a', 'b', 'c']
      = .fatal (.parse_err "Unterminated string" 0) ∧
    parse_batch (conf0 1) "ls\n\"abc\n".toList
      = .fatal (.parse_err "Unterminated string" 1) ∧
    parse_batch (conf0 1) ['l', 's', ' ', '\\']
      = .fatal (.parse_err "Escape char not specified" 0) ∧
    parse_batch (conf0 1) ['a', '\\', '\n', 'b', '\n', '"', 'c']
      = .fatal (.parse_err "Unterminated string" 1) := by
  exact ⟨by decide, by decide, by decide, by decide⟩

/-! ## Batch parser: failures of flag stripping -/

/-- The test of line 443 is "a non-empty token that starts with `-`". -/
theorem dash_token_iff (t : List Char) :
    (strlen t > 0 ∧ t.headD NUL = '-') ↔ dash_token t = true := by
  cases t with
  | nil => simp [dash_token, strlen, cstr, NUL]
  | cons c rest =>
    by_cases hn : c = NUL
    · subst hn
      simp [dash_token, strlen, cstr]
    · simp [dash_token, strlen, cstr, hn]

/-- The flag loop fails exactly when the scan of the claim does, and returns
otherwise. -/
theorem strip_flags_fail_iff : ∀ (n : Nat) (toks : List (List Char)) (cmd : Cmd),
    toks.length ≤ n →
    (flags_fail toks = true →
      strip_flags toks cmd = .fatal (.unknown_option '-') ∨
      ∃ opt, strip_flags toks cmd = .fatal (.requires_argument opt)) ∧
    (flags_fail toks = false → ∃ cmd1 rest, strip_flags toks cmd = .ok (cmd1, rest)) := by
  intro n
  induction n with
  | zero =>
    intro toks cmd hlen
    have : toks = [] := List.length_eq_zero.1 (Nat.le_zero.1 hlen)
    subst this
    simp [flags_fail, strip_flags]
  | succ n ih =>
    intro toks cmd hlen
    cases toks with
    | nil => simp [flags_fail, strip_flags]
    | cons t rest =>
      simp only [List.length_cons] at hlen
      rw [strip_flags.eq_def, flags_fail.eq_def]
      simp only [streq, decide_eq_true_eq]
      by_cases hI : cstr t = ['-', 'I']
      · have hv : valued_flag t = true := by simp [valued_flag, hI]
        simp only [hI, if_true, hv]
        cases rest with
        | nil => simp
        | cons v rest2 =>
          simp only [List.length_cons] at hlen
          exact ih rest2 _ (by omega)
      · by_cases hi : cstr t = ['-', 'i']
        · have hv : valued_flag t = true := by simp [valued_flag, hi]
          simp only [hI, if_false, hi, if_true, hv]
          cases rest with
          | nil => simp
          | cons v rest2 =>
            simp only [List.length_cons] at hlen
            exact ih rest2 _ (by omega)
        · by_cases ho : cstr t = ['-', 'o']
          · have hv : valued_flag t = true := by simp [valued_flag, ho]
            simp only [hI, if_false, hi, ho, if_true, hv]
            cases rest with
            | nil => simp
            | cons v rest2 =>
              simp only [List.length_cons] at hlen
              exact ih rest2 _ (by omega)
          · have hv : valued_flag t = false := by simp [valued_flag, hI, hi, ho]
            by_cases hq : cstr t = ['-', 'q']
            · simp only [hI, if_false, hi, ho, hq, if_true, hv, Bool.false_eq_true]
              exact ih rest _ (by omega)
            · simp only [hI, if_false, hi, ho, hq, hv, Bool.false_eq_true]
              by_cases hd : dash_token t = true
              · have hd2 := (dash_token_iff t).2 hd
                rw [if_pos hd2]
                refine ⟨fun _ => Or.inl ?_, fun h => absurd hd (by simp [h])⟩
                rw [hd2.2]
              · have hd2 : ¬ (strlen t > 0 ∧ t.headD NUL = '-') :=
                  fun h => hd ((dash_token_iff t).1 h)
                rw [if_neg hd2]
                exact ⟨fun h => absurd h hd, fun _ => ⟨cmd, t :: rest, rfl⟩⟩

/-- C12: for every tokenized line, the flag loop fails fatally if and only
if the scan `flags_fail` of the line is true: before any token that does not
start with `-` it reaches a non-empty token starting with `-` that is none of
`-I`, `-i`, `-o`, `-q` (as `-x`, `-`, `--`, `-Ifoo`), or one of `-I`, `-i`, `-o`
as the last token; in every other case it returns a command. -/
theorem flag_stripping_fails_iff (toks : List (List Char)) (cmd : Cmd) :
    ((∃ f, strip_flags toks cmd = .fatal f) ↔ flags_fail toks = true) ∧
    ((∃ cmd1 rest, strip_flags toks cmd = .ok (cmd1, rest)) ↔ flags_fail toks = false) ∧
    flags_fail [['-', 'x']] = true ∧ flags_fail [['-']] = true ∧
    flags_fail [['-', '-']] = true ∧ flags_fail [['-', 'I', 'f', 'o', 'o']] = true ∧
    flags_fail [['-', 'q'], ['-', 'o']] = true ∧
    flags_fail [['-', 'I'], ['-', 'x'], ['l', 's'], ['-', 'x']] = false ∧
    flags_fail [['-', 'q']] = false := by
  obtain ⟨h1, h2⟩ := strip_flags_fail_iff toks.length toks cmd (Nat.le_refl _)
  refine ⟨⟨?_, ?_⟩, ⟨?_, ?_⟩, by decide, by decide, by decide, by decide, by decide,
    by decide, by decide⟩
  · rintro ⟨f, hf⟩
    by_contra hne
    obtain ⟨cmd1, rest, hok⟩ := h2 (by simpa using hne)
    rw [hok] at hf
    exact absurd hf (by simp)
  · intro h
    rcases h1 h with h | ⟨opt, h⟩
    · exact ⟨_, h⟩
    · exact ⟨_, h⟩
  · rintro ⟨cmd1, rest, hok⟩
    by_contra hne
    rcases h1 (by simpa using hne) with h | ⟨opt, h⟩
    · rw [hok] at h; exact absurd h (by simp)
    · rw [hok] at h; exact absurd h (by simp)
  · exact h2

/-! ## Executor: the status of the timed child, a failed fork -/

theorem prepare_input_env (env : Env) (pid status : Int) (conf : Conf) (cmd : Cmd) (runi : Nat) :
    prepare_input { env with pid := pid, status := status } conf cmd runi
      = prepare_input env conf cmd runi := by
  simp only [prepare_input, read_input]

theorem sink_output_env (env : Env) (pid status : Int) (oc : Option (List Char)) :
    sink_output { env with pid := pid, status := status } oc = sink_output env oc := by
  simp only [sink_output]

theorem fill_slot_env (env : Env) (pid status : Int) (cmd : Cmd) (runi : Nat) :
    fill_slot { env with pid := pid, status := status } cmd runi = fill_slot env cmd runi := by
  simp only [fill_slot]

/-- The result of `execute_cmd`, without its trace. -/
theorem execute_cmd_result (env : Env) (conf : Conf) (cmd : Cmd) (runi : Nat) :
    (execute_cmd env conf cmd runi).2 =
      match (prepare_input env conf cmd runi).2 with
      | .fatal f => .fatal f
      | .unfinished => .unfinished
      | .ok _ =>
        match replace conf cmd cmd.output_cmd runi with
        | .fatal f => .fatal f
        | .unfinished => .unfinished
        | .ok oc =>
          if oc.isSome ∧ ¬ env.tmpfile_output_ok then .fatal (.cmd_err cmd.argv.head?)
          else
            match (sink_output env oc).2 with
            | .fatal f => .fatal f
            | .unfinished => .unfinished
            | .ok _ => .ok (fill_slot env cmd runi) := by
  rcases hpi : prepare_input env conf cmd runi with ⟨t1, r1⟩
  cases r1 with
  | fatal f => simp only [execute_cmd, hpi]
  | unfinished => simp only [execute_cmd, hpi]
  | ok u =>
    cases hrep : replace conf cmd cmd.output_cmd runi with
    | fatal f => simp only [execute_cmd, hpi, hrep]
    | unfinished => simp only [execute_cmd, hpi, hrep]
    | ok oc =>
      by_cases htmp : oc.isSome ∧ ¬ env.tmpfile_output_ok
      · simp only [execute_cmd, hpi, hrep, if_pos htmp]
      · rcases hso : sink_output env oc with ⟨t5, r5⟩
        cases r5 with
        | fatal f => simp only [execute_cmd, hpi, hrep, hso, if_neg htmp]
        | unfinished => simp only [execute_cmd, hpi, hrep, hso, if_neg htmp]
        | ok u5 => simp only [execute_cmd, hpi, hrep, hso, if_neg htmp]

/-- The result of `execute_cmd` does not depend on the pid and the status. -/
theorem execute_cmd_env (env : Env) (pid status : Int) (conf : Conf) (cmd : Cmd) (runi : Nat) :
    (execute_cmd { env with pid := pid, status := status } conf cmd runi).2
      = (execute_cmd env conf cmd runi).2 := by
  rw [execute_cmd_result, execute_cmd_result, prepare_input_env, fill_slot_env]
  simp only [sink_output_env]

/-- With no placeholder or a non-empty one, `replace` returns a string. -/
theorem replace_returns (conf : Conf) (cmd : Cmd) (s : List Char) (runi : Nat)
    (hp : ∀ p, cmd.replace_str = some p → cstr p ≠ []) :
    ∃ r, replace conf cmd (some s) runi = .ok (some r) := by
  cases h : cmd.replace_str with
  | none => exact ⟨cstr s, by simp [replace, replace_fuel, h]⟩
  | some p => exact ⟨_, replace_subst conf cmd s p runi h (hp p h)⟩

/-- The scheduling loop does not depend on the statuses of the timed children. -/
theorem main_loop_status (envs envs1 : Nat → Env)
    (h : ∀ k, ∃ st, envs1 k = { envs k with status := st }) :
    ∀ (n i : Nat) (conf : Conf) (draws : List Nat) (trace : List Event),
    main_loop envs1 n i conf draws trace = main_loop envs n i conf draws trace := by
  intro n
  induction n with
  | zero => intro i conf draws trace; rfl
  | succ n ih =>
    intro i conf draws trace
    have hex : ∀ cmd runi, (execute_cmd (envs1 i) conf cmd runi).2
        = (execute_cmd (envs i) conf cmd runi).2 := by
      intro cmd runi
      obtain ⟨st, hst⟩ := h i
      rw [hst]
      exact execute_cmd_env (envs i) (envs i).pid st conf cmd runi
    simp only [main_loop, hex, ih]

/-- C13: when each helper is absent or succeeds (its command expanded with no
placeholder or a non-empty one, its spawn, copy and exit succeeding),
`execute_cmd` returns with the run slot filled for every wait status of the
timed child, and the scheduling loop is the same whatever the statuses are:
the status never ends the harness. -/
theorem status_is_data (env : Env) (conf : Conf) (cmd : Cmd) (runi : Nat) (status : Int)
    (hin : cmd.input_cmd = none ∨
      (env.popen_input_ok = true ∧ env.tmpfile_input_ok = true ∧ env.pclose_input = 0))
    (hout : cmd.output_cmd = none ∨
      (env.tmpfile_output_ok = true ∧ env.popen_output_ok = true ∧
        env.fcopy_output_ok = true ∧ env.pclose_output = 0))
    (hp : ∀ p, cmd.replace_str = some p → cstr p ≠ [])
    (hr : runi < cmd.rusages.length) :
    (execute_cmd { env with status := status } conf cmd runi).2
      = .ok (fill_slot env cmd runi) ∧
    (fill_slot env cmd runi).rusages[runi]? = some (some env.ru) ∧
    (∀ (envs envs1 : Nat → Env), (∀ k, ∃ st, envs1 k = { envs k with status := st }) →
      ∀ n i conf1 draws trace,
        main_loop envs1 n i conf1 draws trace = main_loop envs n i conf1 draws trace) := by
  refine ⟨?_, by simp [fill_slot, List.getElem?_set_self hr],
    fun envs envs1 h => main_loop_status envs envs1 h⟩
  rw [execute_cmd_env env env.pid status, execute_cmd_result]
  have h1 : (prepare_input env conf cmd runi).2 = .ok () := by
    unfold prepare_input
    cases hi : cmd.input_cmd with
    | none => simp
    | some t =>
      obtain ⟨h2, h3, h4⟩ := hin.resolve_left (by simp [hi])
      obtain ⟨r, hrep⟩ := replace_returns conf cmd t runi hp
      simp [read_input, hi, hrep, h2, h3, h4]
  rw [h1]
  simp only []
  cases ho : cmd.output_cmd with
  | none => simp [replace, sink_output]
  | some t =>
    obtain ⟨h2, h3, h4, h5⟩ := hout.resolve_left (by simp [ho])
    obtain ⟨r, hrep⟩ := replace_returns conf cmd t runi hp
    simp [hrep, sink_output, h2, h3, h4, h5]

/-- Witness of C13: a command with both helpers, the timed child killed by a
signal (status 139). -/
theorem status_is_data_witness :
    (cmd_helpers.input_cmd = none ∨
      (env_ok.popen_input_ok = true ∧ env_ok.tmpfile_input_ok = true ∧
        env_ok.pclose_input = 0)) ∧
    (cmd_helpers.output_cmd = none ∨
      (env_ok.tmpfile_output_ok = true ∧ env_ok.popen_output_ok = true ∧
        env_ok.fcopy_output_ok = true ∧ env_ok.pclose_output = 0)) ∧
    (execute_cmd { env_ok with status := 139 } (conf0 1) cmd_helpers 0).2
      = .ok (fill_slot env_ok cmd_helpers 0) ∧
    (fill_slot env_ok cmd_helpers 0).rusages[0]? = some (some env_ok.ru) :=
  have h := status_is_data env_ok (conf0 1) cmd_helpers 0 139
    (Or.inr ⟨rfl, rfl, rfl⟩) (Or.inr ⟨rfl, rfl, rfl, rfl⟩)
    (by intro p hp; simp only [cmd_helpers, new_cmd, Option.some.injEq] at hp; subst hp; decide)
    (by decide)
  ⟨Or.inr ⟨rfl, rfl, rfl⟩, Or.inr ⟨rfl, rfl, rfl, rfl⟩, h.1, h.2.1⟩

/-- C16: the code at the failing input.  The value of `fork` is not tested:
with `fork` returning -1 `execute_cmd` gives the same result as with a child,
so where every helper succeeds it waits on pid -1, fills the run slot and
returns, where the claim says it terminates the harness. -/
theorem fork_failure_returns (env : Env) (conf : Conf) (cmd : Cmd) (runi : Nat) :
    (execute_cmd { env with pid := -1 } conf cmd runi).2 = (execute_cmd env conf cmd runi).2 ∧
    (execute_cmd { env_ok with pid := -1 } (conf0 1) cmd_helpers 0).2
      = .ok (fill_slot env_ok cmd_helpers 0) ∧
    Effect.wait4 (-1) ∈ (execute_cmd { env_ok with pid := -1 } (conf0 1) cmd_helpers 0).1 :=
  ⟨execute_cmd_env env (-1) env.status conf cmd runi, by decide, by decide⟩

/-! ## Executor: the standard output of the timed child -/

/-- C15: the code at the failing input.  The line `-q -o cat ls` sets quiet
and the output command `cat`; in the child, after `freopen` has succeeded the
`else if` still runs `dup2` onto the standard output, so the timed command
writes to the capture buffer, where the claim says `/dev/null`: with an output
command and every call succeeding the destination is the capture buffer for
every command, quiet or not. -/
theorem quiet_output_is_captured (cmd : Cmd) (tmpf : Bool) (oc : List Char) :
    execute_cmd_child cenv_ok cmd tmpf (some oc) = .ok .capture ∧
    first_cmd (parse_batch (conf0 1) "-q -o cat ls".toList) = some cmd_quiet_out ∧
    cmd_quiet_out.quiet = true ∧
    replace (conf0 1) cmd_quiet_out cmd_quiet_out.output_cmd 0 = .ok (some ['c', 'a', 't']) ∧
    execute_cmd_child cenv_ok cmd_quiet_out false (some ['c', 'a', 't']) = .ok .capture ∧
    stdout_ref cmd_quiet_out.quiet (some ['c', 'a', 't']) = .dev_null := by
  refine ⟨?_, by decide, by decide, by decide, by decide, by decide⟩
  simp [execute_cmd_child, cenv_ok]

/-! ## Scheduler: the sleeps -/

/-- C14: the code at the failing input.  With two commands, two runs each
and `sleep = 3` the loop makes four passes and sleeps only after the first
(line 661 tests `i + 1 < conf->num_runs`), where the claim says it sleeps after
each of the first three. -/
theorem sleeps_only_in_first_runs :
    schedule (fun _ => env_ok) conf_2x2 draws_2x2 = .ok result_2x2 ∧
    conf_2x2.num_cmds * conf_2x2.num_runs = 4 ∧
    conf_2x2.sleep = 3 ∧
    sleeps result_2x2.2 = [false, true, false, false, false] := by
  exact ⟨by decide, by decide, by decide, by decide⟩

/-! ## Integer expressions: the sleep duration, the `-n` option -/

/-- C17: the code at the failing inputs.  The macro `RANDN` pastes its
argument without parentheses, so the duration is `(x % s) * 1000000`, a whole
number of seconds, and not `x mod (s * 1000000)`: with the default `s = 3` the
raw value 40000 gives 1000000 microseconds where the claim says 40000, no raw
value gives 7 microseconds, and the one sleep of the schedule of `conf_2x2`
(raw value 7) lasts 1000000 microseconds; for every `s` and `x` the duration
is a multiple of 1000000. -/
theorem sleep_is_whole_seconds :
    sleep_usec 3 40000 = some 1000000 ∧ (40000 : Int) % (3 * 1000000) = 40000 ∧
    (∀ x, sleep_usec 3 x ≠ some 7) ∧
    (∀ s x, sleep_usec s x = none ∨ ∃ k, sleep_usec s x = some (k * 1000000)) ∧
    sleep_usec 4295 40000 = some 1345000000 ∧
    sleep_usec 2148 2146967296 = some 484000000 ∧
    sleep_usec 67108864 5 = some 5000000 ∧
    sleep_durations result_2x2.2 = [1000000] := by
  refine ⟨by decide, by decide, ?_, ?_, by decide, by decide, by decide, by decide⟩
  · intro x h
    simp only [sleep_usec, RANDN] at h
    simp only [show ¬ ((3 : Int) = 0) by decide, if_false, Option.some.injEq] at h
    omega
  · intro s x
    by_cases hs : s = 0
    · left; simp [sleep_usec, RANDN, hs]
    · right; exact ⟨Int.tmod (x : Int) s, by simp [sleep_usec, RANDN, hs]⟩

/-- C18: the code at the failing inputs.  Line 551 rejects `lval >= UINT_MAX`,
not `lval > INT_MAX`: the arguments 2147483648 to 4294967294 are accepted and
stored in `conf->num_runs` as negative numbers (3000000000 as -1294967296). -/
theorem num_runs_stored_negative :
    opt_n 3000000000 = some (-1294967296) ∧
    opt_n 2147483648 = some (-2147483648) ∧
    opt_n 4294967294 = some (-2) ∧
    opt_n 4294967295 = none ∧ opt_n 0 = none ∧ opt_n 5 = some 5 := by
  exact ⟨by decide, by decide, by decide, by decide, by decide, by decide⟩

/-! ## Placeholder substitution: the empty placeholder -/

/-- With the empty placeholder the counting loop of `replace` never ends. -/
theorem count_loop_empty : ∀ (fuel : Nat) (f : List Char) (k : Nat),
    count_loop [] fuel f k = .unfinished := by
  intro fuel
  induction fuel with
  | zero => intro f k; rfl
  | succ fuel ih =>
    intro f k
    have hs : strstr f [] = some 0 := by
      cases f <;> simp [strstr, starts_with]
    simp only [count_loop, hs, List.length_nil, Nat.add_zero, List.drop_zero]
    exact ih f (k + 1)

/-- C19: the code at the failing input.  With the empty placeholder, which
the batch line `-I "" -i gen ls` sets, `strstr` finds an occurrence at every
pass and the pointer does not advance: for every template and every budget
`replace` is still in its counting loop, so it returns no string. -/
theorem replace_empty_placeholder_loops (fuel : Nat) (conf : Conf) (cmd : Cmd)
    (s : List Char) (runi : Nat) :
    replace_fuel fuel conf { cmd with replace_str := some [] } (some s) runi = .unfinished ∧
    replace conf { cmd with replace_str := some [] } (some s) runi = .unfinished ∧
    first_cmd (parse_batch (conf0 1) "-I \"\" -i gen ls".toList)
      = some { new_cmd 1 with replace_str := some [], input_cmd := some ['g', 'e', 'n'],
                              argv := [['l', 's']] } := by
  have h : ∀ fuel1, replace_fuel fuel1 conf { cmd with replace_str := some [] } (some s) runi
      = .unfinished := by
    intro fuel1
    simp only [replace_fuel, cstr, count_loop_empty]
  exact ⟨h fuel, h _, by decide⟩

/-! ## Batch parser: termination -/

theorem skip_blank_le : ∀ (bd : List Char), (skip_blank bd).length ≤ bd.length
  | [] => by simp [skip_blank]
  | c :: rest => by
    have := skip_blank_le rest
    simp only [skip_blank]
    split
    · simp only [List.length_cons]; omega
    · exact Nat.le_refl _

theorem skip_blank_head : ∀ (bd : List Char) (c : Char) (rest : List Char),
    skip_blank bd = c :: rest → c ≠ ' ' ∧ c ≠ '\t'
  | [], c, rest, h => by simp [skip_blank] at h
  | b :: bd, c, rest, h => by
    simp only [skip_blank] at h
    split at h
    · exact skip_blank_head bd c rest h
    · rename_i hb
      simp only [List.cons.injEq] at h
      obtain ⟨rfl, _⟩ := h
      exact ⟨fun h1 => hb (Or.inl h1), fun h1 => hb (Or.inr h1)⟩

theorem skip_comment_le : ∀ (bd : List Char), (skip_comment bd).length ≤ bd.length
  | [] => by simp [skip_comment]
  | c :: rest => by
    have := skip_comment_le rest
    simp only [skip_comment]
    split
    · simp only [List.length_cons]; omega
    · exact Nat.le_refl _

/-- The copy pass stops at or after the byte it starts at, and never fails
where the measuring pass passed. -/
theorem copy_arg_facts (lineno : Nat) (qc : Char) : ∀ (n : Nat) (bd : List Char),
    bd.length ≤ n → ∀ (arg : List Char) (argsz : Nat),
    copy_arg qc bd arg ≠ .unfinished ∧
    measure_arg lineno qc bd argsz ≠ .unfinished ∧
    (∀ a r, copy_arg qc bd arg = .ok (a, r) → r.length ≤ bd.length) ∧
    (∀ f, measure_arg lineno qc bd argsz = .fatal f → f.is_parse_error = true) ∧
    (∀ x, measure_arg lineno qc bd argsz = .ok x → ∃ y, copy_arg qc bd arg = .ok y) := by
  intro n
  induction n with
  | zero =>
    intro bd hlen arg argsz
    have : bd = [] := List.length_eq_zero.1 (Nat.le_zero.1 hlen)
    subst this
    simp [copy_arg, measure_arg]
  | succ n ih =>
    intro bd hlen arg argsz
    cases bd with
    | nil => simp [copy_arg, measure_arg]
    | cons c rest =>
      simp only [List.length_cons] at hlen
      rw [copy_arg.eq_def, measure_arg.eq_def]
      simp only []
      by_cases h1 : qc ≠ NUL ∧ c = qc
      · simp only [if_pos h1]
        simp
      · simp only [if_neg h1]
        by_cases h2 : c = '\n' ∨ c = '\r'
        · simp only [if_pos h2]
          by_cases hq : qc ≠ NUL
          · simp [if_pos hq, Fatal.is_parse_error]
          · simp [if_neg hq]
        · simp only [if_neg h2]
          by_cases h3 : qc = NUL ∧ c = ' '
          · simp [if_pos h3]
          · simp only [if_neg h3]
            by_cases h4 : c = '\\'
            · simp only [if_pos h4]
              cases rest with
              | nil => simp [Fatal.is_parse_error]
              | cons d rest2 =>
                simp only [List.length_cons] at hlen
                obtain ⟨k1, k2, k3, k4, k5⟩ :=
                  ih rest2 (by omega) (arg ++ [escape_char d]) (argsz + 1)
                refine ⟨k1, k2, ?_, k4, k5⟩
                intro a r h
                have := k3 a r h
                simp only [List.length_cons]
                omega
            · simp only [if_neg h4]
              obtain ⟨k1, k2, k3, k4, k5⟩ := ih rest (by omega) (arg ++ [c]) (argsz + 1)
              refine ⟨k1, k2, ?_, k4, k5⟩
              intro a r h
              have := k3 a r h
              simp only [List.length_cons]
              omega

/-- A token takes at least one byte of input, and reading it ends in a token
or in a parse error. -/
theorem parse_arg_facts (lineno : Nat) (c : Char) (rest : List Char)
    (hc : c ≠ '\n' ∧ c ≠ '\r' ∧ c ≠ ' ' ∧ c ≠ '\t') :
    parse_arg lineno (c :: rest) ≠ .unfinished ∧
    (∀ arg bd2, parse_arg lineno (c :: rest) = .ok (arg, bd2) → bd2.length ≤ rest.length) ∧
    (∀ f, parse_arg lineno (c :: rest) = .fatal f → f.is_parse_error = true) := by
  obtain ⟨c1, c2, c3, c4⟩ := hc
  by_cases hq : c = '"' ∨ c = '\''
  · have hoq : open_quote (c :: rest) = (c, rest) := by simp [open_quote, hq]
    obtain ⟨k1, k2, k3, k4, k5⟩ := copy_arg_facts lineno c rest.length rest (Nat.le_refl _) [] 0
    unfold parse_arg
    rw [hoq]
    simp only []
    cases hm : measure_arg lineno c rest 0 with
    | unfinished => exact absurd hm k2
    | fatal f => simpa using k4 f hm
    | ok x =>
      obtain ⟨argsz, bdj⟩ := x
      simp only []
      split
      · simp [Fatal.is_parse_error]
      · refine ⟨k1, fun arg bd2 h => k3 arg bd2 h, ?_⟩
        intro f hf
        obtain ⟨y, hy⟩ := k5 _ hm
        rw [hy] at hf
        exact absurd hf (by simp)
  · have hoq : open_quote (c :: rest) = (NUL, c :: rest) := by simp [open_quote, hq]
    obtain ⟨k1, k2, k3, k4, k5⟩ :=
      copy_arg_facts lineno NUL (c :: rest).length (c :: rest) (Nat.le_refl _) [] 0
    have hstep : ∀ a r, copy_arg NUL (c :: rest) [] = .ok (a, r) → r.length ≤ rest.length := by
      intro a r h
      rw [copy_arg.eq_def] at h
      simp only [ne_eq, not_true_eq_false, false_and, if_false, c1, c2, or_self, c3, and_false]
        at h
      split at h
      · cases rest with
        | nil => simp at h
        | cons d rest2 =>
          simp only [] at h
          have := (copy_arg_facts lineno NUL rest2.length rest2 (Nat.le_refl _)
            ([] ++ [escape_char d]) 0).2.2.1 a r h
          simp only [List.length_cons]
          omega
      · exact (copy_arg_facts lineno NUL rest.length rest (Nat.le_refl _) ([] ++ [c]) 0).2.2.1
          a r h
    unfold parse_arg
    rw [hoq]
    simp only []
    cases hm : measure_arg lineno NUL (c :: rest) 0 with
    | unfinished => exact absurd hm k2
    | fatal f => simpa using k4 f hm
    | ok x =>
      obtain ⟨argsz, bdj⟩ := x
      simp only [ne_eq, not_true_eq_false, false_and, if_false]
      refine ⟨k1, hstep, ?_⟩
      intro f hf
      obtain ⟨y, hy⟩ := k5 _ hm
      rw [hy] at hf
      exact absurd hf (by simp)


theorem skip_space_le : ∀ (bd : List Char), (skip_space bd).length ≤ bd.length
  | [] => by simp [skip_space]
  | c :: rest => by
    have := skip_space_le rest
    simp only [skip_space]
    split
    · simp only [List.length_cons]; omega
    · exact Nat.le_refl _

/-- Where the token loop does not skip, the byte is no space, tab or carriage return. -/
theorem skip_space_none (c : Char) (rest : List Char)
    (h : ¬ (skip_space (c :: rest)).length < (c :: rest).length) :
    c ≠ ' ' ∧ c ≠ '\t' ∧ c ≠ '\r' := by
  by_cases hc : c = ' ' ∨ c = '\t' ∨ c = '\r'
  · exfalso
    apply h
    have := skip_space_le rest
    simp only [skip_space, if_pos hc, List.length_cons]
    omega
  · exact ⟨fun h1 => hc (Or.inl h1), fun h1 => hc (Or.inr (Or.inl h1)),
      fun h1 => hc (Or.inr (Or.inr h1))⟩

/-- One pass of the token loop: it ends the loop, fails, or goes on with
strictly fewer unread bytes. -/
theorem parse_args_pass (lineno fuel : Nat) (bd : List Char) (argv : List (List Char)) :
    parse_args lineno (fuel + 1) bd argv = .ok (argv, bd) ∨
    (∃ f, f.is_parse_error = true ∧ parse_args lineno (fuel + 1) bd argv = .fatal f) ∨
    (∃ bd1 argv1, bd1.length < bd.length ∧
      parse_args lineno (fuel + 1) bd argv = parse_args lineno fuel bd1 argv1) := by
  cases bd with
  | nil => left; simp [parse_args]
  | cons c rest =>
    rw [parse_args]
    by_cases h1 : c = '\n' ∨ c = '\r'
    · left; simp only [if_pos h1]
    · simp only [if_neg h1]
      by_cases h2 : (skip_space (c :: rest)).length < (c :: rest).length
      · right; right
        exact ⟨_, argv, h2, by simp only [if_pos h2]⟩
      · simp only [if_neg h2]
        obtain ⟨c3, c4, _⟩ := skip_space_none c rest h2
        obtain ⟨k1, k2, k3⟩ := parse_arg_facts lineno c rest
          ⟨fun h => h1 (Or.inl h), fun h => h1 (Or.inr h), c3, c4⟩
        cases hp : parse_arg lineno (c :: rest) with
        | unfinished => exact absurd hp k1
        | fatal f => right; left; exact ⟨f, k3 f hp, rfl⟩
        | ok x =>
          obtain ⟨arg, bd2⟩ := x
          right; right
          refine ⟨bd2, argv ++ [arg], ?_, rfl⟩
          have := k2 arg bd2 hp
          simp only [List.length_cons]
          omega

/-- The token loop ends within a budget above the number of unread bytes, in
a token list or a parse error, and never moves the read position back. -/
theorem parse_args_facts (lineno : Nat) : ∀ (fuel : Nat) (bd : List Char)
    (argv : List (List Char)), bd.length < fuel →
    parse_args lineno fuel bd argv ≠ .unfinished ∧
    (∀ argv1 bd2, parse_args lineno fuel bd argv = .ok (argv1, bd2) → bd2.length ≤ bd.length) ∧
    (∀ f, parse_args lineno fuel bd argv = .fatal f → f.is_parse_error = true) := by
  intro fuel
  induction fuel with
  | zero => intro bd argv h; omega
  | succ fuel ih =>
    intro bd argv hlen
    rcases parse_args_pass lineno fuel bd argv with h | ⟨f, hf, h⟩ | ⟨bd1, argv1, hlt, h⟩
    · rw [h]
      refine ⟨by simp, ?_, by simp⟩
      intro argv1 bd2 h1
      simp only [Res.ok.injEq, Prod.mk.injEq] at h1
      rw [← h1.2]
    · rw [h]
      refine ⟨by simp, by simp, ?_⟩
      intro f1 h1
      simp only [Res.fatal.injEq] at h1
      rw [← h1]; exact hf
    · rw [h]
      obtain ⟨k1, k2, k3⟩ := ih bd1 argv1 (by omega)
      refine ⟨k1, ?_, k3⟩
      intro argv2 bd2 h1
      have := k2 argv2 bd2 h1
      omega

/-- The flag loop ends in a command or in a parse error. -/
theorem make_cmd_facts (num_runs : Nat) (argv : List (List Char)) :
    make_cmd num_runs argv ≠ .unfinished ∧
    (∀ f, make_cmd num_runs argv = .fatal f → f.is_parse_error = true) := by
  obtain ⟨h1, h2⟩ := strip_flags_fail_iff argv.length argv (new_cmd num_runs) (Nat.le_refl _)
  unfold make_cmd
  cases hf : flags_fail argv with
  | true =>
    rcases h1 hf with h | ⟨opt, h⟩
    · rw [h]; simp [Fatal.is_parse_error]
    · rw [h]; simp [Fatal.is_parse_error]
  | false =>
    obtain ⟨cmd1, rest, h⟩ := h2 hf
    rw [h]; simp

/-- One pass of the line loop: it ends the loop, fails, or goes on with
strictly fewer unread bytes. -/
theorem parse_lines_pass (num_runs fuel lineno : Nat) (bd : List Char) (cmds : List Cmd) :
    parse_lines num_runs (fuel + 1) lineno bd cmds = .ok cmds ∨
    (∃ f, f.is_parse_error = true ∧
      parse_lines num_runs (fuel + 1) lineno bd cmds = .fatal f) ∨
    (∃ lineno1 bd1 cmds1, bd1.length < bd.length ∧
      parse_lines num_runs (fuel + 1) lineno bd cmds
        = parse_lines num_runs fuel lineno1 bd1 cmds1) := by
  rw [parse_lines]
  have hle := skip_blank_le bd
  cases hsb : skip_blank bd with
  | nil => left; rfl
  | cons c rest =>
    rw [hsb] at hle
    simp only [List.length_cons] at hle
    obtain ⟨c3, c4⟩ := skip_blank_head bd c rest hsb
    simp only []
    by_cases h1 : c = '\n' ∨ c = '\r'
    · right; right
      exact ⟨if c = '\n' then lineno + 1 else lineno, rest, cmds, by omega,
        by simp only [if_pos h1]⟩
    · simp only [if_neg h1]
      by_cases h2 : c = '#'
      · simp only [if_pos h2]
        have hsc := skip_comment_le rest
        cases hk : skip_comment rest with
        | nil => left; rfl
        | cons d rest2 =>
          rw [hk] at hsc
          right; right
          exact ⟨lineno, d :: rest2, cmds, by omega, rfl⟩
      · simp only [if_neg h2]
        have hc : c ≠ '\n' ∧ c ≠ '\r' ∧ c ≠ ' ' ∧ c ≠ '\t' :=
          ⟨fun h => h1 (Or.inl h), fun h => h1 (Or.inr h), c3, c4⟩
        obtain ⟨p1, p2, p3⟩ := parse_arg_facts lineno c rest hc
        have htok := parse_args_token lineno (c :: rest).length c rest [] hc
        cases hp : parse_arg lineno (c :: rest) with
        | unfinished => exact absurd hp p1
        | fatal f =>
          rw [hp] at htok
          right; left
          exact ⟨f, p3 f hp, by rw [htok]⟩
        | ok x =>
          obtain ⟨arg, bd1⟩ := x
          rw [hp] at htok
          simp only [] at htok
          have hb1 := p2 arg bd1 hp
          obtain ⟨k1, k2, k3⟩ := parse_args_facts lineno (c :: rest).length bd1 ([] ++ [arg])
            (by simp only [List.length_cons]; omega)
          rw [htok]
          cases ha : parse_args lineno (c :: rest).length bd1 ([] ++ [arg]) with
          | unfinished => exact absurd ha k1
          | fatal f => right; left; exact ⟨f, k3 f ha, rfl⟩
          | ok y =>
            obtain ⟨argv, bd2⟩ := y
            have hb2 := k2 argv bd2 ha
            obtain ⟨m1, m2⟩ := make_cmd_facts num_runs argv
            simp only []
            cases hm : make_cmd num_runs argv with
            | unfinished => exact absurd hm m1
            | fatal f => right; left; exact ⟨f, m2 f hm, rfl⟩
            | ok cmd =>
              right; right
              exact ⟨lineno, bd2, cmds ++ [cmd], by omega, rfl⟩

/-- The line loop ends within a budget above the number of unread bytes, in
a command list or a parse error. -/
theorem parse_lines_facts (num_runs : Nat) : ∀ (fuel lineno : Nat) (bd : List Char)
    (cmds : List Cmd), bd.length < fuel →
    parse_lines num_runs fuel lineno bd cmds ≠ .unfinished ∧
    (∀ f, parse_lines num_runs fuel lineno bd cmds = .fatal f → f.is_parse_error = true) := by
  intro fuel
  induction fuel with
  | zero => intro lineno bd cmds h; omega
  | succ fuel ih =>
    intro lineno bd cmds hlen
    rcases parse_lines_pass num_runs fuel lineno bd cmds with h | ⟨f, hf, h⟩ |
      ⟨lineno1, bd1, cmds1, hlt, h⟩
    · rw [h]; simp
    · rw [h]
      refine ⟨by simp, ?_⟩
      intro f1 h1
      simp only [Res.fatal.injEq] at h1
      rw [← h1]; exact hf
    · rw [h]
      exact ih lineno1 bd1 cmds1 (by omega)

/-- C20: `parse_batch` ends on every batch text, in a command list or in a
parse error: the budget of one pass more than the text has bytes is never
exhausted.  Every pass of the line loop and of the token loop ends the loop,
fails with a parse error, or goes on with strictly fewer unread bytes; and a
token read at a byte that is no blank and no line terminator takes at least
one byte of input. -/
theorem parse_batch_terminates (conf : Conf) (bd : List Char) :
    parse_batch conf bd ≠ .unfinished ∧
    ((∃ conf1, parse_batch conf bd = .ok conf1) ∨
      ∃ f, f.is_parse_error = true ∧ parse_batch conf bd = .fatal f) ∧
    (∀ fuel lineno bd1 cmds,
      parse_lines conf.num_runs (fuel + 1) lineno bd1 cmds = .ok cmds ∨
      (∃ f, f.is_parse_error = true ∧
        parse_lines conf.num_runs (fuel + 1) lineno bd1 cmds = .fatal f) ∨
      (∃ lineno1 bd2 cmds1, bd2.length < bd1.length ∧
        parse_lines conf.num_runs (fuel + 1) lineno bd1 cmds
          = parse_lines conf.num_runs fuel lineno1 bd2 cmds1)) ∧
    (∀ lineno fuel bd1 argv,
      parse_args lineno (fuel + 1) bd1 argv = .ok (argv, bd1) ∨
      (∃ f, f.is_parse_error = true ∧ parse_args lineno (fuel + 1) bd1 argv = .fatal f) ∨
      (∃ bd2 argv1, bd2.length < bd1.length ∧
        parse_args lineno (fuel + 1) bd1 argv = parse_args lineno fuel bd2 argv1)) ∧
    (∀ lineno c rest, c = '\n' ∨ c = '\r' ∨ c = ' ' ∨ c = '\t' ∨
      (∃ f, f.is_parse_error = true ∧ parse_arg lineno (c :: rest) = .fatal f) ∨
      (∃ arg bd2, parse_arg lineno (c :: rest) = .ok (arg, bd2) ∧
        bd2.length < (c :: rest).length)) := by
  obtain ⟨h1, h2⟩ := parse_lines_facts conf.num_runs (bd.length + 1) 0 bd [] (Nat.lt_succ_self _)
  have hres : parse_batch conf bd ≠ .unfinished ∧
      ((∃ conf1, parse_batch conf bd = .ok conf1) ∨
        ∃ f, f.is_parse_error = true ∧ parse_batch conf bd = .fatal f) := by
    unfold parse_batch
    cases hp : parse_lines conf.num_runs (bd.length + 1) 0 bd [] with
    | unfinished => exact absurd hp h1
    | fatal f => exact ⟨by simp, Or.inr ⟨f, h2 f hp, rfl⟩⟩
    | ok cmds => exact ⟨by simp, Or.inl ⟨_, rfl⟩⟩
  refine ⟨hres.1, hres.2, fun fuel lineno bd1 cmds => parse_lines_pass _ fuel lineno bd1 cmds,
    fun lineno fuel bd1 argv => parse_args_pass lineno fuel bd1 argv, ?_⟩
  intro lineno c rest
  by_cases hc : c ≠ '\n' ∧ c ≠ '\r' ∧ c ≠ ' ' ∧ c ≠ '\t'
  · obtain ⟨k1, k2, k3⟩ := parse_arg_facts lineno c rest hc
    right; right; right; right
    cases hp : parse_arg lineno (c :: rest) with
    | unfinished => exact absurd hp k1
    | fatal f => exact Or.inl ⟨f, k3 f hp, rfl⟩
    | ok x =>
      obtain ⟨arg, bd2⟩ := x
      refine Or.inr ⟨arg, bd2, rfl, ?_⟩
      have := k2 arg bd2 hp
      simp only [List.length_cons]
      omega
  · by_cases h1 : c = '\n'
    · exact Or.inl h1
    · by_cases h2 : c = '\r'
      · exact Or.inr (Or.inl h2)
      · by_cases h3 : c = ' '
        · exact Or.inr (Or.inr (Or.inl h3))
        · by_cases h4 : c = '\t'
          · exact Or.inr (Or.inr (Or.inr (Or.inl h4)))
          · exact absurd ⟨h1, h2, h3, h4⟩ hc

/-! ## Batch parser: the copy pass against the measuring pass -/

/-- Where the measuring pass stops without an error, the copy pass has
written as many bytes as the measuring pass counted and stops at the same
byte, or one past it when it is the closing quote. -/
theorem copy_follows_measure (lineno : Nat) (qc : Char) : ∀ (n : Nat) (bd : List Char),
    bd.length ≤ n → ∀ (arg : List Char) (argsz argsz1 : Nat) (bdj : List Char),
    measure_arg lineno qc bd argsz = .ok (argsz1, bdj) →
    ∃ arg1, copy_arg qc bd arg = .ok (arg1, if qc ≠ NUL then bdj.tail else bdj) ∧
      arg1.length + argsz = arg.length + argsz1 ∧
      (qc ≠ NUL → bdj ≠ [] → bdj.head? = some qc) := by
  intro n
  induction n with
  | zero =>
    intro bd hlen arg argsz argsz1 bdj h
    have : bd = [] := List.length_eq_zero.1 (Nat.le_zero.1 hlen)
    subst this
    simp only [measure_arg, Res.ok.injEq, Prod.mk.injEq] at h
    obtain ⟨rfl, rfl⟩ := h
    exact ⟨arg, by simp [copy_arg], rfl, fun _ h => absurd rfl h⟩
  | succ n ih =>
    intro bd hlen arg argsz argsz1 bdj h
    cases bd with
    | nil =>
      simp only [measure_arg, Res.ok.injEq, Prod.mk.injEq] at h
      obtain ⟨rfl, rfl⟩ := h
      exact ⟨arg, by simp [copy_arg], rfl, fun _ h => absurd rfl h⟩
    | cons c rest =>
      simp only [List.length_cons] at hlen
      rw [measure_arg.eq_def] at h
      rw [copy_arg.eq_def]
      simp only [] at h ⊢
      by_cases h1 : qc ≠ NUL ∧ c = qc
      · simp only [if_pos h1, Res.ok.injEq, Prod.mk.injEq] at h
        simp only [if_pos h1]
        obtain ⟨rfl, rfl⟩ := h
        exact ⟨arg, by simp [h1.1], rfl, fun _ _ => by simp [h1.2]⟩
      · simp only [if_neg h1] at h ⊢
        by_cases h2 : c = '\n' ∨ c = '\r'
        · simp only [if_pos h2] at h ⊢
          by_cases hq : qc ≠ NUL
          · simp [if_pos hq] at h
          · simp only [if_neg hq, Res.ok.injEq, Prod.mk.injEq] at h
            simp only [if_neg hq]
            obtain ⟨rfl, rfl⟩ := h
            exact ⟨arg, rfl, rfl, fun h => absurd h hq⟩
        · simp only [if_neg h2] at h ⊢
          by_cases h3 : qc = NUL ∧ c = ' '
          · simp only [if_pos h3, Res.ok.injEq, Prod.mk.injEq] at h
            simp only [if_pos h3]
            obtain ⟨rfl, rfl⟩ := h
            exact ⟨arg, by simp [h3.1], rfl, fun h => absurd h3.1 h⟩
          · simp only [if_neg h3] at h ⊢
            by_cases h4 : c = '\\'
            · simp only [if_pos h4] at h ⊢
              cases rest with
              | nil => simp at h
              | cons d rest2 =>
                simp only [List.length_cons] at hlen
                simp only [] at h ⊢
                obtain ⟨arg1, k1, k2, k3⟩ :=
                  ih rest2 (by omega) (arg ++ [escape_char d]) (argsz + 1) argsz1 bdj h
                refine ⟨arg1, k1, ?_, k3⟩
                simp only [List.length_append, List.length_singleton] at k2
                omega
            · simp only [if_neg h4] at h ⊢
              obtain ⟨arg1, k1, k2, k3⟩ :=
                ih rest (by omega) (arg ++ [c]) (argsz + 1) argsz1 bdj h
              refine ⟨arg1, k1, ?_, k3⟩
              simp only [List.length_append, List.length_singleton] at k2
              omega

/-- C21: for every token whose measuring pass ends without a parse error
(it returns `argsz` and the unread bytes `bdj`, and a quoted token did not run
into the end of the input), the copy pass writes exactly `argsz` bytes, so the
terminating NUL is written at index `argsz` of the `argsz + 1` bytes; it stops
at the byte where the measuring pass stopped, and one past it for a quoted
token, where that byte is the closing quote; neither assertion of the copy
pass fails, and the token is read. -/
theorem copy_pass_matches_measure (lineno : Nat) (tok bdj : List Char) (argsz : Nat)
    (h : measure_arg lineno (open_quote tok).1 (open_quote tok).2 0 = .ok (argsz, bdj))
    (hq : ¬ ((open_quote tok).1 ≠ NUL ∧ bdj = [])) :
    ∃ arg,
      copy_arg (open_quote tok).1 (open_quote tok).2 []
        = .ok (arg, if (open_quote tok).1 ≠ NUL then bdj.tail else bdj) ∧
      arg.length = argsz ∧ arg.length < argsz + 1 ∧
      ((open_quote tok).1 ≠ NUL → ∃ rest, bdj = (open_quote tok).1 :: rest) ∧
      (∀ cond, copy_arg (open_quote tok).1 (open_quote tok).2 [] ≠ .fatal (.assert_fail cond)) ∧
      parse_arg lineno tok = .ok (arg, if (open_quote tok).1 ≠ NUL then bdj.tail else bdj) := by
  obtain ⟨arg, k1, k2, k3⟩ := copy_follows_measure lineno (open_quote tok).1
    (open_quote tok).2.length (open_quote tok).2 (Nat.le_refl _) [] 0 argsz bdj h
  have hlen : arg.length = argsz := by simpa using k2
  refine ⟨arg, k1, hlen, by omega, ?_, ?_, ?_⟩
  · intro hne
    have hb : bdj ≠ [] := fun hb => hq ⟨hne, hb⟩
    cases bdj with
    | nil => exact absurd rfl hb
    | cons c rest =>
      have := k3 hne hb
      simp only [List.head?_cons, Option.some.injEq] at this
      exact ⟨rest, by rw [this]⟩
  · intro cond hc
    rw [k1] at hc
    exact absurd hc (by simp)
  · unfold parse_arg
    rw [h]
    simp only [if_neg hq]
    exact k1

/-- Witness of C21: the quoted token `"a\tb"` followed by ` x`: three bytes,
the measuring pass stops at the closing quote. -/
theorem copy_pass_matches_measure_witness :
    measure_arg 0 (open_quote token_text).1 (open_quote token_text).2 0
      = .ok (3, ['"', ' ', 'x']) ∧
    ¬ ((open_quote token_text).1 ≠ NUL ∧ (['"', ' ', 'x'] : List Char) = []) ∧
    ∃ arg,
      copy_arg (open_quote token_text).1 (open_quote token_text).2 []
        = .ok (arg, if (open_quote token_text).1 ≠ NUL
            then (['"', ' ', 'x'] : List Char).tail else ['"', ' ', 'x']) ∧
      arg.length = 3 ∧ arg.length < 3 + 1 ∧
      ((open_quote token_text).1 ≠ NUL →
        ∃ rest, (['"', ' ', 'x'] : List Char) = (open_quote token_text).1 :: rest) ∧
      (∀ cond, copy_arg (open_quote token_text).1 (open_quote token_text).2 []
        ≠ .fatal (.assert_fail cond)) ∧
      parse_arg 0 token_text
        = .ok (arg, if (open_quote token_text).1 ≠ NUL
            then (['"', ' ', 'x'] : List Char).tail else ['"', ' ', 'x']) :=
  ⟨by decide, by decide,
   copy_pass_matches_measure 0 token_text ['"', ' ', 'x'] 3 (by decide) (by decide)⟩

/-! ## Batch parser: unterminated strings -/

/-- A pass of the token loop that goes on: the next pass has strictly fewer
unread bytes and the loop gives from there what it gives from here. -/
theorem tok_pass_spec (lineno : Nat) (bd bd1 : List Char) (argv argv1 : List (List Char))
    (h : tok_pass lineno (bd, argv) = some (bd1, argv1)) :
    bd1.length < bd.length ∧
    ∀ fuel, parse_args lineno (fuel + 1) bd argv = parse_args lineno fuel bd1 argv1 := by
  cases bd with
  | nil => simp [tok_pass] at h
  | cons c rest =>
    simp only [tok_pass] at h
    by_cases h1 : c = '\n' ∨ c = '\r'
    · simp [if_pos h1] at h
    · simp only [if_neg h1] at h
      by_cases h2 : (skip_space (c :: rest)).length < (c :: rest).length
      · simp only [if_pos h2, Option.some.injEq, Prod.mk.injEq] at h
        obtain ⟨rfl, rfl⟩ := h
        refine ⟨h2, fun fuel => ?_⟩
        rw [parse_args]
        simp only [if_neg h1, if_pos h2]
      · simp only [if_neg h2] at h
        obtain ⟨c3, c4, _⟩ := skip_space_none c rest h2
        have hc : c ≠ '\n' ∧ c ≠ '\r' ∧ c ≠ ' ' ∧ c ≠ '\t' :=
          ⟨fun h => h1 (Or.inl h), fun h => h1 (Or.inr h), c3, c4⟩
        obtain ⟨_, k2, _⟩ := parse_arg_facts lineno c rest hc
        cases hp : parse_arg lineno (c :: rest) with
        | unfinished => simp [hp] at h
        | fatal f => simp [hp] at h
        | ok x =>
          obtain ⟨arg, bd2⟩ := x
          simp only [hp, Option.some.injEq, Prod.mk.injEq] at h
          obtain ⟨rfl, rfl⟩ := h
          have := k2 arg bd2 hp
          refine ⟨by simp only [List.length_cons]; omega, fun fuel => ?_⟩
          rw [parse_args_token lineno fuel c rest argv hc, hp]

/-- The token loop after `m` passes. -/
theorem tok_reach_spec (lineno : Nat) : ∀ (m : Nat) (bd bd1 : List Char)
    (argv argv1 : List (List Char)),
    tok_reach lineno m (bd, argv) = some (bd1, argv1) →
    bd1.length + m ≤ bd.length ∧
    ∀ fuel, parse_args lineno (fuel + m) bd argv = parse_args lineno fuel bd1 argv1 := by
  intro m
  induction m with
  | zero =>
    intro bd bd1 argv argv1 h
    simp only [tok_reach, Option.some.injEq, Prod.mk.injEq] at h
    obtain ⟨rfl, rfl⟩ := h
    exact ⟨Nat.le_refl _, fun fuel => rfl⟩
  | succ m ih =>
    intro bd bd1 argv argv1 h
    simp only [tok_reach] at h
    cases hp : tok_pass lineno (bd, argv) with
    | none => simp [hp] at h
    | some s1 =>
      obtain ⟨bd2, argv2⟩ := s1
      simp only [hp] at h
      obtain ⟨k1, k2⟩ := tok_pass_spec lineno bd bd2 argv argv2 hp
      obtain ⟨k3, k4⟩ := ih bd2 bd1 argv2 argv1 h
      refine ⟨by omega, fun fuel => ?_⟩
      rw [show fuel + (m + 1) = (fuel + m) + 1 by omega, k2, k4]

/-- A pass of the line loop that goes on: the next pass has strictly fewer
unread bytes and the loop gives from there what it gives from here. -/
theorem line_pass_spec (num_runs lineno lineno1 : Nat) (bd bd1 : List Char)
    (cmds cmds1 : List Cmd)
    (h : line_pass num_runs (lineno, bd, cmds) = some (lineno1, bd1, cmds1)) :
    bd1.length < bd.length ∧
    ∀ fuel, parse_lines num_runs (fuel + 1) lineno bd cmds
      = parse_lines num_runs fuel lineno1 bd1 cmds1 := by
  simp only [line_pass] at h
  have hle := skip_blank_le bd
  cases hsb : skip_blank bd with
  | nil => simp [hsb] at h
  | cons c rest =>
    rw [hsb] at hle
    simp only [List.length_cons] at hle
    obtain ⟨c3, c4⟩ := skip_blank_head bd c rest hsb
    simp only [hsb] at h
    by_cases h1 : c = '\n' ∨ c = '\r'
    · simp only [if_pos h1, Option.some.injEq, Prod.mk.injEq] at h
      obtain ⟨rfl, rfl, rfl⟩ := h
      refine ⟨by omega, fun fuel => ?_⟩
      rw [parse_lines, hsb]
      simp only [if_pos h1]
    · simp only [if_neg h1] at h
      by_cases h2 : c = '#'
      · simp only [if_pos h2] at h
        have hsc := skip_comment_le rest
        cases hk : skip_comment rest with
        | nil => simp [hk] at h
        | cons d rest2 =>
          rw [hk] at hsc
          simp only [hk, Option.some.injEq, Prod.mk.injEq] at h
          obtain ⟨rfl, rfl, rfl⟩ := h
          refine ⟨by omega, fun fuel => ?_⟩
          rw [parse_lines, hsb]
          simp only [if_neg h1, if_pos h2, hk]
      · simp only [if_neg h2] at h
        have hc : c ≠ '\n' ∧ c ≠ '\r' ∧ c ≠ ' ' ∧ c ≠ '\t' :=
          ⟨fun h => h1 (Or.inl h), fun h => h1 (Or.inr h), c3, c4⟩
        simp only [List.length_cons] at h
        cases ha : parse_args lineno (rest.length + 1 + 1) (c :: rest) [] with
        | unfinished => simp [ha] at h
        | fatal f => simp [ha] at h
        | ok y =>
          obtain ⟨argv, bd2⟩ := y
          simp only [ha] at h
          cases hm : make_cmd num_runs argv with
          | unfinished => simp [hm] at h
          | fatal f => simp [hm] at h
          | ok cmd =>
            simp only [hm, Option.some.injEq, Prod.mk.injEq] at h
            obtain ⟨rfl, rfl, rfl⟩ := h
            have hlt : bd2.length ≤ rest.length := by
              have htok := parse_args_token lineno (rest.length + 1) c rest [] hc
              rw [ha] at htok
              obtain ⟨p1, p2, p3⟩ := parse_arg_facts lineno c rest hc
              cases hp : parse_arg lineno (c :: rest) with
              | unfinished => exact absurd hp p1
              | fatal f => rw [hp] at htok; exact absurd htok (by simp)
              | ok x =>
                obtain ⟨arg, bd3⟩ := x
                rw [hp] at htok
                simp only [] at htok
                have hb3 := p2 arg bd3 hp
                have := (parse_args_facts lineno (rest.length + 1) bd3 ([] ++ [arg])
                  (by omega)).2.1 argv bd2 htok.symm
                omega
            refine ⟨by omega, fun fuel => ?_⟩
            rw [parse_lines, hsb]
            simp only [if_neg h1, if_neg h2, List.length_cons, ha, hm]

/-- The line loop after `k` passes. -/
theorem line_reach_spec (num_runs : Nat) : ∀ (k lineno lineno1 : Nat) (bd bd1 : List Char)
    (cmds cmds1 : List Cmd),
    line_reach num_runs k (lineno, bd, cmds) = some (lineno1, bd1, cmds1) →
    bd1.length + k ≤ bd.length ∧
    ∀ fuel, parse_lines num_runs (fuel + k) lineno bd cmds
      = parse_lines num_runs fuel lineno1 bd1 cmds1 := by
  intro k
  induction k with
  | zero =>
    intro lineno lineno1 bd bd1 cmds cmds1 h
    simp only [line_reach, Option.some.injEq, Prod.mk.injEq] at h
    obtain ⟨rfl, rfl, rfl⟩ := h
    exact ⟨Nat.le_refl _, fun fuel => rfl⟩
  | succ k ih =>
    intro lineno lineno1 bd bd1 cmds cmds1 h
    simp only [line_reach] at h
    cases hp : line_pass num_runs (lineno, bd, cmds) with
    | none => simp [hp] at h
    | some s1 =>
      obtain ⟨lineno2, bd2, cmds2⟩ := s1
      simp only [hp] at h
      obtain ⟨k1, k2⟩ := line_pass_spec num_runs lineno lineno2 bd bd2 cmds cmds2 hp
      obtain ⟨k3, k4⟩ := ih lineno2 lineno1 bd2 bd1 cmds2 cmds1 h
      refine ⟨by omega, fun fuel => ?_⟩
      rw [show fuel + (k + 1) = (fuel + k) + 1 by omega, k2, k4]

/-- A token the tokenizer reaches and fails to read: `parse_batch` fails with
the error of the token. -/
theorem reach_fatal (conf : Conf) (bd : List Char) (k m lineno : Nat) (bd0 : List Char)
    (cmds : List Cmd) (argv : List (List Char)) (c : Char) (rest : List Char) (f : Fatal)
    (hline : line_reach conf.num_runs k (0, bd, []) = some (lineno, bd0, cmds))
    (hcmd : (skip_blank bd0).head? ≠ some '#')
    (htok : tok_reach lineno m (skip_blank bd0, []) = some (c :: rest, argv))
    (hc : c ≠ '\n' ∧ c ≠ '\r' ∧ c ≠ ' ' ∧ c ≠ '\t')
    (hf : parse_arg lineno (c :: rest) = .fatal f) :
    parse_batch conf bd = .fatal f := by
  obtain ⟨t1, t2⟩ := tok_reach_spec lineno m _ _ _ _ htok
  obtain ⟨l1, l2⟩ := line_reach_spec conf.num_runs k _ _ _ _ _ _ hline
  simp only [List.length_cons] at t1
  have hargs : parse_args lineno ((skip_blank bd0).length + 1) (skip_blank bd0) []
      = .fatal f := by
    have := t2 ((skip_blank bd0).length - m + 1)
    rw [show (skip_blank bd0).length - m + 1 + m = (skip_blank bd0).length + 1 by omega] at this
    rw [this, parse_args_token lineno _ c rest argv hc, hf]
  have hlines : ∀ fuel, parse_lines conf.num_runs (fuel + 1) lineno bd0 cmds = .fatal f := by
    intro fuel
    rw [parse_lines]
    cases hsb : skip_blank bd0 with
    | nil => rw [hsb] at t1; simp at t1
    | cons c0 rest0 =>
      rw [hsb] at hargs hcmd
      simp only []
      have h1 : ¬ (c0 = '\n' ∨ c0 = '\r') := by
        intro h1
        rw [parse_args] at hargs
        simp [if_pos h1] at hargs
      have h2 : c0 ≠ '#' := by
        intro h2
        exact hcmd (by simp [h2])
      simp only [if_neg h1, if_neg h2, hargs]
  have hle := skip_blank_le bd0
  unfold parse_batch
  have := l2 (bd.length - k + 1)
  rw [show bd.length - k + 1 + k = bd.length + 1 by omega] at this
  rw [this, hlines]

/-- A quoted token whose last piece is followed by a backslash that is the
last byte of the input. -/
theorem parse_arg_dangling (lineno : Nat) {q : Char} (hq : q = '"' ∨ q = '\'')
    (ps : List Piece) (hin : ∀ p ∈ ps, p.inside q) :
    parse_arg lineno (q :: (pieces_text ps ++ ['\\']))
      = .fatal (.parse_err "Escape char not specified" lineno) := by
  obtain ⟨h0, h1, h2, h3, _⟩ := quote_facts hq
  unfold parse_arg
  rw [open_quote_quote hq]
  simp only []
  rw [measure_arg_pieces lineno q h1 ps _ 0 hin]
  rw [measure_arg.eq_def]
  simp only []
  rw [if_neg (fun h => h1 h.2.symm), if_neg (by decide),
    if_neg (fun h => absurd h.2 (by decide))]
  simp

/-- C10, amended: when the tokenizer reaches (after `k` passes of the line
loop and `m` passes of the token loop of a line that is no comment) a token
that opens with a quote `q` and goes on with plain bytes and complete escape
pairs, then: if a line feed, a carriage return or the end of the input follows
before any closing `q`, `parse_batch` fails with "Unterminated string" at that
line and returns no command list; if a backslash that is the last byte of the
input follows, it fails with "Escape char not specified"; and if the closing
`q` follows, the token is read and the token loop goes on, without that error. -/
theorem unterminated_string (conf : Conf) (bd : List Char) (k m lineno : Nat)
    (bd0 : List Char) (cmds : List Cmd) (argv : List (List Char)) (q : Char)
    (ps : List Piece) (tail : List Char)
    (hline : line_reach conf.num_runs k (0, bd, []) = some (lineno, bd0, cmds))
    (hcmd : (skip_blank bd0).head? ≠ some '#')
    (htok : tok_reach lineno m (skip_blank bd0, [])
      = some (q :: (pieces_text ps ++ tail), argv))
    (hq : q = '"' ∨ q = '\'') (hin : ∀ p ∈ ps, p.inside q) :
    ((tail = [] ∨ ∃ c rest, tail = c :: rest ∧ (c = '\n' ∨ c = '\r')) →
      parse_batch conf bd = .fatal (.parse_err "Unterminated string" lineno)) ∧
    (tail = ['\\'] →
      parse_batch conf bd = .fatal (.parse_err "Escape char not specified" lineno)) ∧
    (∀ rest, tail = q :: rest →
      parse_arg lineno (q :: (pieces_text ps ++ tail)) = .ok (pieces_bytes ps, rest) ∧
      tok_pass lineno (q :: (pieces_text ps ++ tail), argv)
        = some (rest, argv ++ [pieces_bytes ps])) := by
  obtain ⟨h0, h1, h2, h3, h4, h5, h6⟩ := quote_facts hq
  refine ⟨fun htail => ?_, fun htail => ?_, fun rest htail => ?_⟩
  · exact reach_fatal conf bd k m lineno bd0 cmds argv q _ _ hline hcmd htok ⟨h2, h3, h4, h5⟩
      (parse_arg_unterminated lineno hq ps hin tail htail)
  · subst htail
    exact reach_fatal conf bd k m lineno bd0 cmds argv q _ _ hline hcmd htok ⟨h2, h3, h4, h5⟩
      (parse_arg_dangling lineno hq ps hin)
  · subst htail
    have hp := parse_arg_quoted lineno hq ps hin rest
    refine ⟨hp, ?_⟩
    simp only [tok_pass, skip_space, h2, h3, h4, h5, or_self, if_false, lt_self_iff_false, hp]

/-- Witness of C10: the second line of `text_unterminated` is `echo "abc`; the
line loop reaches it in two passes, the token loop reaches the quoted token in
two passes, and the diagnostic names line 1. -/
theorem unterminated_string_witness :
    line_reach (conf0 1).num_runs 2 (0, text_unterminated, [])
      = some (1, "echo \"abc\nx".toList,
          [{ new_cmd 1 with argv := [['l', 's'], ['-', 'l']] }]) ∧
    (skip_blank "echo \"abc\nx".toList).head? ≠ some '#' ∧
    tok_reach 1 2 (skip_blank "echo \"abc\nx".toList, [])
      = some ('"' :: (pieces_text [.plain 'a', .plain 'b', .plain 'c'] ++ ['\n', 'x']),
          [['e', 'c', 'h', 'o']]) ∧
    (∀ p ∈ [Piece.plain 'a', .plain 'b', .plain 'c'], p.inside '"') ∧
    parse_batch (conf0 1) text_unterminated = .fatal (.parse_err "Unterminated string" 1) :=
  ⟨by decide, by decide, by decide, by decide,
   (unterminated_string (conf0 1) text_unterminated 2 2 1 "echo \"abc\nx".toList
      [{ new_cmd 1 with argv := [['l', 's'], ['-', 'l']] }] [['e', 'c', 'h', 'o']] '"'
      [.plain 'a', .plain 'b', .plain 'c'] ['\n', 'x'] (by decide) (by decide) (by decide)
      (Or.inl rfl) (by decide)).1 (Or.inr ⟨'\n', ['x'], rfl, Or.inl rfl⟩)⟩

/-- C10, counterexample: the file `"abc\` opens a quoted token that meets the
end of the input before any closing quote, and `parse_batch` fails with "Escape
char not specified", not with "Unterminated string". -/
theorem unterminated_string_counterexample :
    '"' ∉ ['a', 'b', 'c', '\\'] ∧
    parse_batch (conf0 1) ('"' :: ['a', 'b', 'c', '\\'])
      = .fatal (.parse_err "Escape char not specified" 0) ∧
    parse_batch (conf0 1) ('"' :: ['a', 'b', 'c', '\\'])
      ≠ .fatal (.parse_err "Unterminated string" 0) := by
  exact ⟨by decide, by decide, by decide⟩

end Multitime
